import Mathlib

/-!
# loadcontig: loading a file into the reserved contiguous buffer

A shallow embedding of `src/main.cpp` (`main`, `getFileSize`, `execute`, `fillBuffer`).

* The process globals (`fd`, `contigBuffer`) and the environment the program talks to
  (the file system, the heap allocator, the mapped memory region) are one record, `World`,
  passed explicitly through every function.
* `size_t` / `uint64_t` values are natural numbers, reduced modulo `2 ^ 64` wherever the C++
  arithmetic can wrap; `int` is obtained by `toInt`.
* The `while` loop of `fillBuffer` is `transferLoop`, one call of `loopBody` per iteration,
  bounded by a fuel argument.
* Ghost fields of `World` (`reads`, `writes`, `shown`, `diag`, `entered`) record what the program
  did: the `read` calls issued, the `memcpy` calls into the buffer, the percentages printed, the
  diagnostics written to `stderr`, and whether `fillBuffer` was called.
-/

namespace LoadContig

/-! ## Machine values -/

/-- One `uint8_t`. -/
abbrev Byte := Fin 256

/-- A region of memory, addressed by the offset from its first byte. -/
abbrev Mem := Nat → Byte

/-- Conversion of a signed value (`off64_t`, `ssize_t`) to `size_t`. -/
def toSizeT (i : Int) : Nat := (i % 2 ^ 64).toNat

/-- Conversion of a `uint64_t` value to `int` (two's complement, 32 bits). -/
def toInt (n : Nat) : Int :=
  if n % 2 ^ 32 < 2 ^ 31 then ((n % 2 ^ 32 : Nat) : Int) else ((n % 2 ^ 32 : Nat) : Int) - 2 ^ 32

/-! ## The source file -/

/-- A file as it lies on disk. `seekable` is false for a source on which `lseek` fails (a FIFO,
a terminal). `faults` scripts the behaviour of the operating system on the coming `read` calls,
one entry per call: `none` makes the call fail with `-1`, `some m` makes it deliver at most `m`
bytes; once the script is used up a call delivers everything that was asked for and is there. -/
structure File where
  data : List Byte
  seekable : Bool
  faults : List (Option Nat)

/-- An open file description: a file together with the current file offset. -/
structure Source where
  data : List Byte
  pos : Nat
  seekable : Bool
  faults : List (Option Nat)

/-- The `whence` argument of `lseek`, as far as the program uses it. -/
inductive Whence where
  | SEEK_SET
  | SEEK_END

/-- The call `lseek(fd, 0, whence)` / `lseek64(fd, 0, whence)` on an open file description: the
resulting offset, or `-1` with the offset unchanged when the source is not seekable or the offset
does not fit `off64_t`. -/
def Source.lseek0 (s : Source) : Whence → Int × Source
  | Whence.SEEK_SET => if s.seekable then (0, { s with pos := 0 }) else (-1, s)
  | Whence.SEEK_END =>
    if s.seekable ∧ s.data.length < 2 ^ 63 then
      ((s.data.length : Int), { s with pos := s.data.length })
    else (-1, s)

/-- The call `read(fd, buf, count)` on an open file description: `none` when the call fails with
`-1`, otherwise the bytes delivered, which start at the current offset and are at most `count`;
the offset advances by what was delivered. -/
def Source.read (s : Source) (count : Nat) : Option (List Byte) × Source :=
  match s.faults with
  | none :: rest => (none, { s with faults := rest })
  | some m :: rest =>
    let bs := (s.data.drop s.pos).take (min count m)
    (some bs, { s with pos := s.pos + bs.length, faults := rest })
  | [] =>
    let bs := (s.data.drop s.pos).take count
    (some bs, { s with pos := s.pos + bs.length })

/-! ## The contiguous buffer manager -/

/-- Modelled from the spec: `PhysMem.h`, the class of the global `contigBuffer`, is not among the
sources. The spec (section 6) gives its four operations: `map()` maps the reserved region and
fails fatally when it cannot be mapped, `getSize()` returns the capacity in bytes,
`getPhysAddr()` the physical base address (used only in a message), `bptr()` a writable pointer
to the start of the region. `mapOk` says whether `map()` succeeds; a failure is taken to be a
C++ exception derived from `std::exception`. -/
structure PhysMem where
  mapOk : Bool
  size : Nat
  physAddr : Nat

/-! ## The world -/

/-- A diagnostic written to `stderr`. -/
inductive Diag where
  | missingFilename
  | cantOpen (filename : String)
  | wontFit (fileSize bufferSize : Nat)
  | readError
  | what
  deriving DecidableEq, Repr

/-- How a function is left. -/
inductive Outcome where
  /-- The function returned to its caller. -/
  | returned
  /-- The process was ended by `exit(status)`. -/
  | exited (status : Nat)
  /-- An exception derived from `std::exception` is propagating. -/
  | thrown
  /-- The loop was still running when the fuel ran out. -/
  | diverged
  deriving DecidableEq, Repr

/-- The globals of the program, its environment, and the record of what it did. -/
structure World where
  /-- The file system: what `open(filename, O_RDONLY)` finds, `none` when the open fails. -/
  disk : String → Option File
  /-- The global `contigBuffer`. -/
  contigBuffer : PhysMem
  /-- Whether `new uint8_t[FRAME_SIZE]` succeeds (otherwise it throws `std::bad_alloc`). -/
  allocOk : Bool
  /-- The content of freshly allocated heap memory. -/
  junk : Mem
  /-- The bytes of the reserved contiguous region, by offset from `contigBuffer.bptr()`. -/
  mem : Mem
  /-- The global `fd`: the open input file, `none` when no file is open. -/
  fd : Option Source
  /-- Every `read` call issued: the count requested and the value returned (as `size_t`). -/
  reads : List (Nat × Nat)
  /-- Every `memcpy` into the contiguous region: offset of the first byte and length. -/
  writes : List (Nat × Nat)
  /-- The percentages printed on `stdout`, in the order printed. -/
  shown : List Int
  /-- The diagnostics written to `stderr`. -/
  diag : List Diag
  /-- Whether `fillBuffer` has been called. -/
  entered : Bool

/-- The call `fd = open(filename, O_RDONLY)`: a fresh open file description at offset 0. -/
def sysOpen (w : World) (filename : String) : Option Source :=
  (w.disk filename).map fun f =>
    { data := f.data, pos := 0, seekable := f.seekable, faults := f.faults }

/-- The call `lseek(fd, 0, whence)` on the global `fd`. -/
def lseek0 (w : World) (whence : Whence) : Int × World :=
  match w.fd with
  | none => (-1, w)
  | some s => ((s.lseek0 whence).1, { w with fd := some (s.lseek0 whence).2 })

/-- The call `rc = read(fd, buf, count)`: the returned count as `size_t`, the buffer after the
call and the world after the call. The call is recorded in `reads`. -/
def sysRead (w : World) (buf : Mem) (count : Nat) : Nat × Mem × World :=
  match w.fd with
  | none => (toSizeT (-1), buf, { w with reads := w.reads ++ [(count, toSizeT (-1))] })
  | some s =>
    match s.read count with
    | (none, s1) =>
      (toSizeT (-1), buf, { w with fd := some s1, reads := w.reads ++ [(count, toSizeT (-1))] })
    | (some bs, s1) =>
      (bs.length, fun i => bs.getD i (buf i),
        { w with fd := some s1, reads := w.reads ++ [(count, bs.length)] })

/-- The call `memcpy(ptr, buf, n)` with `ptr` at offset `ptr` of the contiguous region. -/
def memcpy (mem : Mem) (ptr : Nat) (buf : Mem) (n : Nat) : Mem :=
  fun a => if ptr ≤ a ∧ a < ptr + n then buf (a - ptr) else mem a

/-! ## getFileSize -/

/-- The function `getFileSize(fd)`: seek to the end, rewind to the start, return the result of
the first seek as `size_t`. -/
def getFileSize (w : World) : Nat × World :=
  let r := lseek0 w Whence.SEEK_END
  let r2 := lseek0 r.2 Whence.SEEK_SET
  (toSizeT r.1, r2.2)

/-! ## fillBuffer -/

/-- The constant `FRAME_SIZE` of `fillBuffer`: 1 GiB. -/
def FRAME_SIZE : Nat := 0x40000000

/-- The state of `fillBuffer` at an iteration boundary of its loop: the world and the locals. -/
structure Loop where
  w : World
  localBuffer : Mem
  ptr : Nat
  bytesLoaded : Nat
  bytesRemaining : Nat

/-- The value printed by one iteration: `int pct = 100 * bytesLoaded / fileSize`, computed in
`uint64_t`. -/
def pctOf (bytesLoaded fileSize : Nat) : Int :=
  toInt ((100 * bytesLoaded) % 2 ^ 64 / fileSize)

/-- The size of the next chunk: `blockSize = bytesRemaining`, cut down to `FRAME_SIZE` when it
is larger. -/
def blockSizeOf (frame bytesRemaining : Nat) : Nat :=
  if bytesRemaining > frame then frame else bytesRemaining

/-- The result of one run of the loop body. -/
inductive Step where
  /-- The body ran to its end; the loop condition is tested next. -/
  | next (st : Loop)
  /-- The body called `exit(1)` after a read that did not return `blockSize`. -/
  | exit1 (st : Loop)

/-- One iteration of the `while` loop of `fillBuffer`, entered with `bytesRemaining != 0`. -/
def loopBody (frame fileSize : Nat) (st : Loop) : Step :=
  let blockSize := blockSizeOf frame st.bytesRemaining
  let r := sysRead st.w st.localBuffer blockSize
  if r.1 ≠ blockSize then
    Step.exit1 { st with w := { r.2.2 with diag := r.2.2.diag ++ [Diag.readError] },
                         localBuffer := r.2.1 }
  else
    let bytesLoaded := (st.bytesLoaded + blockSize) % 2 ^ 64
    Step.next
      { w := { r.2.2 with mem := memcpy r.2.2.mem st.ptr r.2.1 blockSize,
                          writes := r.2.2.writes ++ [(st.ptr, blockSize)],
                          shown := r.2.2.shown ++ [pctOf bytesLoaded fileSize] },
        localBuffer := r.2.1,
        ptr := st.ptr + blockSize,
        bytesRemaining := st.bytesRemaining - blockSize,
        bytesLoaded := bytesLoaded }

/-- The loop `while (bytesRemaining) { ... }`, run for at most `fuel` iterations. -/
def transferLoop (frame fileSize : Nat) : Nat → Loop → Outcome × Loop
  | 0, st => if st.bytesRemaining = 0 then (Outcome.returned, st) else (Outcome.diverged, st)
  | fuel + 1, st =>
    if st.bytesRemaining = 0 then (Outcome.returned, st)
    else
      match loopBody frame fileSize st with
      | Step.exit1 st1 => (Outcome.exited 1, st1)
      | Step.next st1 => transferLoop frame fileSize fuel st1

/-- The state of `fillBuffer(fileSize)` when its loop is first reached: `bytesLoaded = 0`, `ptr`
at the start of the region, the staging buffer allocated, `bytesRemaining = fileSize`, and
`Percent loaded =   0` printed. -/
def fillInit (fileSize : Nat) (w : World) : Loop :=
  { w := { w with shown := w.shown ++ [0] },
    localBuffer := w.junk,
    ptr := 0,
    bytesLoaded := 0,
    bytesRemaining := fileSize }

/-- The loop of `fillBuffer(fileSize)` from its first test to its exit, with chunk size `frame`:
the way the loop is left and the locals at that moment. Every iteration with `frame >= 1` takes
at least one byte off `bytesRemaining`, so `fileSize` iterations are enough fuel. -/
def fillLoop (frame fileSize : Nat) (w : World) : Outcome × Loop :=
  transferLoop frame fileSize fileSize (fillInit fileSize { w with entered := true })

/-- The function `fillBuffer(fileSize)` with the chunk size as a parameter. -/
def fillBufferWith (frame fileSize : Nat) (w : World) : Outcome × World :=
  if w.allocOk then
    match fillLoop frame fileSize w with
    | (Outcome.returned, st) => (Outcome.returned, { st.w with shown := st.w.shown ++ [100] })
    | (o, st) => (o, st.w)
  else (Outcome.thrown, { w with entered := true })

/-- The function `fillBuffer(fileSize)`. -/
def fillBuffer (fileSize : Nat) (w : World) : Outcome × World :=
  fillBufferWith FRAME_SIZE fileSize w

/-! ## execute and main -/

/-- The function `execute()`, with the global `filename` as an argument. -/
def execute (filename : String) (w : World) : Outcome × World :=
  match sysOpen w filename with
  | none => (Outcome.exited 1, { w with diag := w.diag ++ [Diag.cantOpen filename] })
  | some s =>
    let r := getFileSize { w with fd := some s }
    let fileSize := r.1
    if r.2.contigBuffer.mapOk then
      let bufferSize := r.2.contigBuffer.size
      if fileSize > bufferSize then
        (Outcome.exited 1, { r.2 with diag := r.2.diag ++ [Diag.wontFit fileSize bufferSize] })
      else
        match fillBuffer fileSize r.2 with
        | (Outcome.returned, w2) => (Outcome.returned, { w2 with fd := none })
        | (o, w2) => (o, w2)
    else (Outcome.thrown, r.2)

/-- The function `main`: `argv1` is `argv[1]`, `none` for a null pointer. -/
def main (argv1 : Option String) (w : World) : Outcome × World :=
  match argv1 with
  | none => (Outcome.exited 1, { w with diag := w.diag ++ [Diag.missingFilename] })
  | some filename =>
    match execute filename w with
    | (Outcome.thrown, w1) => (Outcome.exited 1, { w1 with diag := w1.diag ++ [Diag.what] })
    | (o, w1) => (o, w1)

/-- The exit status of the process, when it ends: returning from `main` gives status 0. -/
def exitStatus : Outcome → Option Nat
  | Outcome.returned => some 0
  | Outcome.exited status => some status
  | Outcome.thrown => none
  | Outcome.diverged => none

/-! ## Iterations of the loop -/

/-- The loop test followed by one run of the loop body: the state at the next iteration boundary,
`none` when the loop is left instead (through its condition or through `exit(1)`). -/
def iterate1 (frame fileSize : Nat) (st : Loop) : Option Loop :=
  if st.bytesRemaining = 0 then none
  else
    match loopBody frame fileSize st with
    | Step.next st1 => some st1
    | Step.exit1 _ => none

/-- The state of the loop after `k` complete iterations, `none` when the loop is left before. -/
def iterations (frame fileSize : Nat) : Nat → Loop → Option Loop
  | 0, st => some st
  | k + 1, st => (iterate1 frame fileSize st).bind (iterations frame fileSize k)

/-- The region `mem` with the bytes `bs` laid over its start. -/
def overlay (mem : Mem) (bs : List Byte) : Mem := fun a => bs.getD a (mem a)

/-- The number of bytes loaded after `k` complete iterations with chunk size `frame`. -/
def loadedAt (frame fileSize k : Nat) : Nat := min (k * frame) fileSize

/-- The size of chunk number `k` (counting from 0). -/
def blockAt (frame fileSize k : Nat) : Nat :=
  loadedAt frame fileSize (k + 1) - loadedAt frame fileSize k

/-- The bookkeeping of `fillBuffer(fileSize)` after `k` complete iterations, started in world
`w`: the counters, the pointer and the records, in closed form. -/
structure Acct (frame fileSize : Nat) (w : World) (k : Nat) (st : Loop) : Prop where
  loaded : st.bytesLoaded = loadedAt frame fileSize k
  remaining : st.bytesRemaining = fileSize - loadedAt frame fileSize k
  ptr : st.ptr = loadedAt frame fileSize k
  shown : st.w.shown =
    w.shown ++ 0 :: (List.range k).map fun j => pctOf (loadedAt frame fileSize (j + 1)) fileSize
  reads : st.w.reads =
    w.reads ++ (List.range k).map fun j => (blockAt frame fileSize j, blockAt frame fileSize j)
  writes : st.w.writes =
    w.writes ++ (List.range k).map fun j => (loadedAt frame fileSize j, blockAt frame fileSize j)
  diag : st.w.diag = w.diag
  entered : st.w.entered = w.entered
  allocOk : st.w.allocOk = w.allocOk
  contigBuffer : st.w.contigBuffer = w.contigBuffer
  disk : st.w.disk = w.disk
  junk : st.w.junk = w.junk
  started : ∀ j, j < k → loadedAt frame fileSize j < fileSize

/-- The data side of `fillBuffer(fileSize)` after `k` complete iterations, started in world `w`
with the open file `s`: where the file offset stands and what the contiguous region holds. -/
structure Moved (frame fileSize : Nat) (w : World) (s : Source) (k : Nat) (st : Loop) : Prop where
  fd : st.w.fd = some { s with pos := s.pos + loadedAt frame fileSize k,
                               faults := s.faults.drop k }
  avail : loadedAt frame fileSize k ≤ s.data.length - s.pos
  mem : st.w.mem = overlay w.mem ((s.data.drop s.pos).take (loadedAt frame fileSize k))

/-- The load ran to full completion: a filename was given, the file was opened, the region was
mapped, the file fits the region, the staging buffer was allocated, and the loop of `fillBuffer`
was left through its condition. -/
def Completed (argv1 : Option String) (w : World) : Prop :=
  ∃ filename s, argv1 = some filename ∧ sysOpen w filename = some s ∧
    w.contigBuffer.mapOk = true ∧
    (getFileSize { w with fd := some s }).1 ≤ w.contigBuffer.size ∧
    w.allocOk = true ∧
    (fillLoop FRAME_SIZE (getFileSize { w with fd := some s }).1 { w with fd := some s }).1 =
      Outcome.returned

/-- Two states of the loop agree on everything a load reads and produces: the open file, the
bytes of the region, the write pointer and the two counters. The staging buffer and the records
may differ. -/
def Agree (a b : Loop) : Prop :=
  a.w.fd = b.w.fd ∧ a.w.mem = b.w.mem ∧ a.ptr = b.ptr ∧ a.bytesLoaded = b.bytesLoaded ∧
    a.bytesRemaining = b.bytesRemaining

/-! ## Sample worlds -/

/-- The first `n` bytes of a memory region. -/
def bytesOf (mem : Mem) (n : Nat) : List Byte := (List.range n).map mem

/-- A world before `main` runs: one file system, one buffer, nothing done yet. -/
def World.start (disk : String → Option File) (contigBuffer : PhysMem) (allocOk : Bool)
    (mem : Mem) : World :=
  { disk := disk, contigBuffer := contigBuffer, allocOk := allocOk, junk := fun _ => 0,
    mem := mem, fd := none, reads := [], writes := [], shown := [], diag := [],
    entered := false }

/-- A regular file of three bytes. -/
def threeBytes : File := { data := [1, 2, 3], seekable := true, faults := [] }

/-- A world with the file `threeBytes` under every name and a buffer of exactly three bytes,
each holding 9. -/
def exactFit : World :=
  World.start (fun _ => some threeBytes) { mapOk := true, size := 3, physAddr := 0 } true
    (fun _ => 9)

/-- A world with the file `threeBytes` under every name and a buffer of two bytes. -/
def tooSmall : World :=
  World.start (fun _ => some threeBytes) { mapOk := true, size := 2, physAddr := 0 } true
    (fun _ => 9)

/-- A world in which the open file holds three bytes, two short of the five that the caller of
`fillBuffer` will announce. -/
def truncated : World :=
  { World.start (fun _ => none) { mapOk := true, size := 8, physAddr := 0 } true (fun _ => 9) with
    fd := some { data := [1, 2, 3], pos := 0, seekable := true, faults := [] } }

/-- A regular file of `2 ^ 58` bytes, all zero. -/
def hugeFile : File := { data := List.replicate (2 ^ 58) 0, seekable := true, faults := [] }

/-- A world with the file `hugeFile` under every name and a buffer of `2 ^ 58` bytes. -/
def hugeWorld : World :=
  World.start (fun _ => some hugeFile) { mapOk := true, size := 2 ^ 58, physAddr := 0 } true
    (fun _ => 0)

/-- A regular file of no bytes. -/
def emptyFile : File := { data := [], seekable := true, faults := [] }

/-- A world with the file `emptyFile` under every name and a buffer of 1024 bytes. -/
def emptyLoad : World :=
  World.start (fun _ => some emptyFile) { mapOk := true, size := 1024, physAddr := 0 } true
    (fun _ => 9)

/-- The world `exactFit` with its file open at offset 0. -/
def opened : World := { exactFit with fd := sysOpen exactFit "data.bin" }

/-- A FIFO with nothing in it: `lseek` fails on it. -/
def pipe : File := { data := [], seekable := false, faults := [] }

/-- A world with the FIFO `pipe` under every name and a buffer of `2 ^ 64 - 1` bytes, a size
that only the model can give a region. -/
def pipeLoad : World :=
  World.start (fun _ => some pipe) { mapOk := true, size := 2 ^ 64 - 1, physAddr := 0 } true
    (fun _ => 9)

/-- A world with the FIFO `pipe` under every name and a buffer of 1024 bytes. -/
def pipeSmall : World :=
  World.start (fun _ => some pipe) { mapOk := true, size := 1024, physAddr := 0 } true
    (fun _ => 9)

/-- A world without any file and a buffer of 1024 bytes. -/
def noFile : World :=
  World.start (fun _ => none) { mapOk := true, size := 1024, physAddr := 0 } true (fun _ => 9)

/-- A file of three bytes whose second `read` fails. -/
def faulty : File := { data := [1, 2, 3], seekable := true, faults := [some 2, none] }

/-- The world `exactFit` with a buffer of eight bytes and its file open at offset 0. -/
def roomy : World :=
  { World.start (fun _ => some threeBytes) { mapOk := true, size := 8, physAddr := 0 } true
      (fun _ => 9) with
    fd := some { data := [1, 2, 3], pos := 0, seekable := true, faults := [] } }

/-- The world `opened` after earlier activity: other garbage in fresh heap memory, records of
earlier reads, writes and output, another physical address. -/
def reused : World :=
  { opened with junk := fun _ => 7, reads := [(4, 4)], writes := [(0, 4)], shown := [0, 100],
                diag := [Diag.readError], entered := true,
                contigBuffer := { mapOk := true, size := 3, physAddr := 4096 } }

/-! ## The loop, iteration by iteration -/

theorem iterations_succ_last (frame F : Nat) (k : Nat) (st0 : Loop) :
    iterations frame F (k + 1) st0 = (iterations frame F k st0).bind (iterate1 frame F) := by
  induction k generalizing st0 with
  | zero => simp [iterations]
  | succ k ih =>
    rw [iterations]
    cases h : iterate1 frame F st0 with
    | none => simp [iterations, h]
    | some st1 =>
      simp only [Option.some_bind]
      rw [ih st1]
      conv_rhs => rw [iterations, h]
      simp

theorem sysRead_world (w : World) (buf : Mem) (n : Nat) :
    ∃ fd1, (sysRead w buf n).2.2 =
      { w with fd := fd1, reads := w.reads ++ [(n, (sysRead w buf n).1)] } := by
  unfold sysRead
  cases hfd : w.fd with
  | none => exact ⟨none, by simp [hfd]⟩
  | some s =>
    rcases hr : s.read n with ⟨o, s1⟩
    cases o with
    | none => exact ⟨some s1, by simp [hr]⟩
    | some bs => exact ⟨some s1, by simp [hr]⟩

/-- What a completed run of the loop body does. -/
theorem loopBody_next {frame F : Nat} {st st1 : Loop} (h : loopBody frame F st = Step.next st1) :
    (sysRead st.w st.localBuffer (blockSizeOf frame st.bytesRemaining)).1 =
        blockSizeOf frame st.bytesRemaining ∧
    st1.bytesLoaded = (st.bytesLoaded + blockSizeOf frame st.bytesRemaining) % 2 ^ 64 ∧
    st1.bytesRemaining = st.bytesRemaining - blockSizeOf frame st.bytesRemaining ∧
    st1.ptr = st.ptr + blockSizeOf frame st.bytesRemaining ∧
    st1.localBuffer = (sysRead st.w st.localBuffer (blockSizeOf frame st.bytesRemaining)).2.1 ∧
    st1.w = { (sysRead st.w st.localBuffer (blockSizeOf frame st.bytesRemaining)).2.2 with
      mem := memcpy st.w.mem st.ptr
        (sysRead st.w st.localBuffer (blockSizeOf frame st.bytesRemaining)).2.1
        (blockSizeOf frame st.bytesRemaining),
      writes := st.w.writes ++ [(st.ptr, blockSizeOf frame st.bytesRemaining)],
      shown := st.w.shown ++
        [pctOf ((st.bytesLoaded + blockSizeOf frame st.bytesRemaining) % 2 ^ 64) F] } := by
  unfold loopBody at h
  obtain ⟨fd1, hw⟩ := sysRead_world st.w st.localBuffer (blockSizeOf frame st.bytesRemaining)
  by_cases hrc : (sysRead st.w st.localBuffer (blockSizeOf frame st.bytesRemaining)).1 =
      blockSizeOf frame st.bytesRemaining
  · simp only [hrc, ne_eq, not_true_eq_false, if_false] at h
    injection h with h
    subst h
    refine ⟨hrc, rfl, rfl, rfl, rfl, ?_⟩
    simp only [hw]
  · simp [hrc] at h

theorem loopBody_exit1 {frame F : Nat} {st st1 : Loop} (h : loopBody frame F st = Step.exit1 st1) :
    (sysRead st.w st.localBuffer (blockSizeOf frame st.bytesRemaining)).1 ≠
        blockSizeOf frame st.bytesRemaining ∧
    st1 = { st with
      w := { (sysRead st.w st.localBuffer (blockSizeOf frame st.bytesRemaining)).2.2 with
        diag := st.w.diag ++ [Diag.readError] },
      localBuffer := (sysRead st.w st.localBuffer (blockSizeOf frame st.bytesRemaining)).2.1 } := by
  unfold loopBody at h
  obtain ⟨fd1, hw⟩ := sysRead_world st.w st.localBuffer (blockSizeOf frame st.bytesRemaining)
  by_cases hrc : (sysRead st.w st.localBuffer (blockSizeOf frame st.bytesRemaining)).1 =
      blockSizeOf frame st.bytesRemaining
  · simp [hrc] at h
  · simp only [ne_eq, hrc, not_false_eq_true, if_true] at h
    injection h with h
    subst h
    refine ⟨hrc, ?_⟩
    simp only [hw]

theorem iterate1_some {frame F : Nat} {st st1 : Loop} (h : iterate1 frame F st = some st1) :
    st.bytesRemaining ≠ 0 ∧ loopBody frame F st = Step.next st1 := by
  unfold iterate1 at h
  by_cases h0 : st.bytesRemaining = 0
  · simp [h0] at h
  · refine ⟨h0, ?_⟩
    simp only [h0, if_false] at h
    cases hb : loopBody frame F st with
    | next st2 => simp [hb] at h; rw [h]
    | exit1 st2 => simp [hb] at h

theorem transferLoop_spec (frame F : Nat) (fuel : Nat) (st0 : Loop) :
    ∃ k st, k ≤ fuel ∧ iterations frame F k st0 = some st ∧
      ((st.bytesRemaining = 0 ∧ transferLoop frame F fuel st0 = (Outcome.returned, st)) ∨
       (st.bytesRemaining ≠ 0 ∧ k < fuel ∧ ∃ st1, loopBody frame F st = Step.exit1 st1 ∧
          transferLoop frame F fuel st0 = (Outcome.exited 1, st1)) ∨
       (st.bytesRemaining ≠ 0 ∧ k = fuel ∧
          transferLoop frame F fuel st0 = (Outcome.diverged, st))) := by
  induction fuel generalizing st0 with
  | zero =>
    refine ⟨0, st0, le_refl _, rfl, ?_⟩
    by_cases h : st0.bytesRemaining = 0
    · left; simp [transferLoop, h]
    · right; right; simp [transferLoop, h]
  | succ fuel ih =>
    by_cases h : st0.bytesRemaining = 0
    · exact ⟨0, st0, Nat.zero_le _, rfl, Or.inl ⟨h, by simp [transferLoop, h]⟩⟩
    · cases hb : loopBody frame F st0 with
      | exit1 st1 =>
        refine ⟨0, st0, Nat.zero_le _, rfl, Or.inr (Or.inl ⟨h, Nat.succ_pos _, st1, hb, ?_⟩)⟩
        simp [transferLoop, h, hb]
      | next st1 =>
        obtain ⟨k, st, hk, hit, hcase⟩ := ih st1
        have hrun : transferLoop frame F (fuel + 1) st0 = transferLoop frame F fuel st1 := by
          simp [transferLoop, h, hb]
        have hit1 : iterations frame F (k + 1) st0 = some st := by
          simp [iterations, iterate1, h, hb, hit]
        refine ⟨k + 1, st, Nat.succ_le_succ hk, hit1, ?_⟩
        rw [hrun]
        rcases hcase with h1 | ⟨h2, hlt, h3⟩ | ⟨h2, heq, h3⟩
        · exact Or.inl h1
        · exact Or.inr (Or.inl ⟨h2, Nat.succ_lt_succ hlt, h3⟩)
        · exact Or.inr (Or.inr ⟨h2, by omega, h3⟩)

/-! ## Bookkeeping after `k` iterations -/

theorem loadedAt_le (frame F k : Nat) : loadedAt frame F k ≤ F := by
  unfold loadedAt; exact Nat.min_le_right _ _

theorem loadedAt_mono (frame F : Nat) {j k : Nat} (h : j ≤ k) :
    loadedAt frame F j ≤ loadedAt frame F k := by
  unfold loadedAt
  have : j * frame ≤ k * frame := Nat.mul_le_mul_right _ h
  omega

theorem blockSizeOf_loadedAt (frame F k : Nat) (h : loadedAt frame F k < F) :
    blockSizeOf frame (F - loadedAt frame F k) = blockAt frame F k := by
  unfold blockSizeOf blockAt loadedAt at *
  rw [Nat.succ_mul]
  generalize k * frame = x at *
  split <;> omega

theorem loadedAt_succ (frame F k : Nat) :
    loadedAt frame F k + blockAt frame F k = loadedAt frame F (k + 1) := by
  have := loadedAt_mono frame F (Nat.le_add_right k 1)
  unfold blockAt; omega

theorem sysRead_fields (w : World) (buf : Mem) (n : Nat) :
    (sysRead w buf n).2.2.reads = w.reads ++ [(n, (sysRead w buf n).1)] ∧
    (sysRead w buf n).2.2.mem = w.mem ∧ (sysRead w buf n).2.2.writes = w.writes ∧
    (sysRead w buf n).2.2.shown = w.shown ∧ (sysRead w buf n).2.2.diag = w.diag ∧
    (sysRead w buf n).2.2.entered = w.entered ∧ (sysRead w buf n).2.2.allocOk = w.allocOk ∧
    (sysRead w buf n).2.2.contigBuffer = w.contigBuffer ∧ (sysRead w buf n).2.2.disk = w.disk ∧
    (sysRead w buf n).2.2.junk = w.junk := by
  obtain ⟨fd1, h⟩ := sysRead_world w buf n
  rw [h]
  simp

theorem acct_init (frame F : Nat) (w : World) : Acct frame F w 0 (fillInit F w) := by
  constructor <;> simp [fillInit, loadedAt]

theorem acct_step {frame F : Nat} {w : World} {k : Nat} {st st1 : Loop} (hF : F < 2 ^ 64)
    (ha : Acct frame F w k st) (h : iterate1 frame F st = some st1) :
    Acct frame F w (k + 1) st1 := by
  obtain ⟨hrem, hb⟩ := iterate1_some h
  obtain ⟨hrc, hl, hr, hp, -, hw⟩ := loopBody_next hb
  have hlt : loadedAt frame F k < F := by have := ha.remaining; omega
  have hblk := blockSizeOf_loadedAt frame F k hlt
  rw [ha.remaining, hblk] at hrc hl hr hp hw
  have hsucc := loadedAt_succ frame F k
  have hle := loadedAt_le frame F (k + 1)
  have hl1 : st1.bytesLoaded = loadedAt frame F (k + 1) := by
    rw [hl, ha.loaded, hsucc]; exact Nat.mod_eq_of_lt (by omega)
  obtain ⟨f1, f2, f3, f4, f5, f6, f7, f8, f9, f10⟩ :=
    sysRead_fields st.w st.localBuffer (blockAt frame F k)
  constructor
  · exact hl1
  · rw [hr]; omega
  · rw [hp, ha.ptr]; exact hsucc
  · rw [hw]; simp only
    rw [ha.shown, ha.loaded, hsucc, Nat.mod_eq_of_lt (by omega), List.range_succ]
    simp
  · rw [hw]; simp only
    rw [f1, ha.reads, hrc, List.range_succ]
    simp
  · rw [hw]; simp only
    rw [ha.writes, ha.ptr, List.range_succ]
    simp
  · rw [hw]; simp only; rw [f5, ha.diag]
  · rw [hw]; simp only; rw [f6, ha.entered]
  · rw [hw]; simp only; rw [f7, ha.allocOk]
  · rw [hw]; simp only; rw [f8, ha.contigBuffer]
  · rw [hw]; simp only; rw [f9, ha.disk]
  · rw [hw]; simp only; rw [f10, ha.junk]
  · intro j hj
    rcases Nat.lt_succ_iff_lt_or_eq.mp hj with h1 | h1
    · exact ha.started j h1
    · rw [h1]; exact hlt

theorem acct_of_iterations {frame F : Nat} {w : World} (hF : F < 2 ^ 64) :
    ∀ (k : Nat) (st : Loop), iterations frame F k (fillInit F w) = some st → Acct frame F w k st := by
  intro k
  induction k with
  | zero =>
    intro st h
    simp only [iterations, Option.some.injEq] at h
    rw [← h]; exact acct_init frame F w
  | succ k ih =>
    intro st h
    rw [iterations_succ_last] at h
    cases hk : iterations frame F k (fillInit F w) with
    | none => simp [hk] at h
    | some st0 =>
      rw [hk] at h
      exact acct_step hF (ih st0 hk) h

/-! ## The data after `k` iterations -/

theorem toSizeT_neg_one : toSizeT (-1) = 2 ^ 64 - 1 := by decide

theorem Source.read_full {s s1 : Source} {n : Nat} {bs : List Byte}
    (h : s.read n = (some bs, s1)) (hlen : bs.length = n) :
    bs = (s.data.drop s.pos).take n ∧ n ≤ s.data.length - s.pos ∧
    s1 = { s with pos := s.pos + n, faults := s.faults.tail } := by
  unfold Source.read at h
  split at h
  · simp at h
  · rename_i m rest hf
    simp only [Prod.mk.injEq, Option.some.injEq] at h
    obtain ⟨h1, h2⟩ := h
    subst h1
    simp only [List.length_take, List.length_drop] at hlen
    have hm : min n m = n := by omega
    rw [hm] at h2 hlen ⊢
    refine ⟨rfl, by omega, ?_⟩
    rw [← h2, hf]
    simp only [List.length_take, List.length_drop, List.tail_cons]
    congr 1
    omega
  · rename_i hf
    simp only [Prod.mk.injEq, Option.some.injEq] at h
    obtain ⟨h1, h2⟩ := h
    subst h1
    simp only [List.length_take, List.length_drop] at hlen
    refine ⟨rfl, by omega, ?_⟩
    rw [← h2, hf]
    simp only [List.length_take, List.length_drop, List.tail_nil]
    congr 1
    omega

theorem sysRead_full {w : World} {s : Source} {buf : Mem} {n : Nat} (hfd : w.fd = some s)
    (hrc : (sysRead w buf n).1 = n) (hn : n < 2 ^ 64 - 1) :
    n ≤ s.data.length - s.pos ∧
    (sysRead w buf n).2.1 = (fun i => ((s.data.drop s.pos).take n).getD i (buf i)) ∧
    (sysRead w buf n).2.2.fd = some { s with pos := s.pos + n, faults := s.faults.tail } := by
  unfold sysRead at hrc ⊢
  rw [hfd] at hrc ⊢
  simp only at hrc ⊢
  rcases hr : s.read n with ⟨o, s1⟩
  rw [hr] at hrc
  cases o with
  | none =>
    simp only [toSizeT_neg_one] at hrc
    omega
  | some bs =>
    simp only at hrc ⊢
    obtain ⟨h1, h2, h3⟩ := Source.read_full hr hrc
    refine ⟨h2, ?_, ?_⟩
    · rw [h1]
    · rw [h3]

theorem memcpy_overlay (mem old : Mem) (bs bs1 : List Byte) :
    memcpy (overlay mem bs) bs.length (fun i => bs1.getD i (old i)) bs1.length =
      overlay mem (bs ++ bs1) := by
  funext a
  unfold memcpy overlay
  by_cases h1 : a < bs.length
  · rw [if_neg (by omega), List.getD_append _ _ _ _ h1]
  · by_cases h2 : a < bs.length + bs1.length
    · rw [if_pos ⟨by omega, h2⟩, List.getD_append_right _ _ _ _ (by omega)]
      dsimp only
      rw [List.getD_eq_getElem _ _ (show a - bs.length < bs1.length by omega),
        List.getD_eq_getElem _ _ (show a - bs.length < bs1.length by omega)]
    · rw [if_neg (by omega), List.getD_eq_default _ _ (by omega),
        List.getD_eq_default _ _ (by simp; omega)]

theorem moved_init (frame F : Nat) (w : World) (s : Source) (h : w.fd = some s) :
    Moved frame F w s 0 (fillInit F w) := by
  constructor
  · simp [fillInit, loadedAt, h]
  · simp [loadedAt]
  · funext a
    simp [fillInit, loadedAt, overlay]

theorem moved_step {frame F : Nat} {w : World} {s : Source} {k : Nat} {st st1 : Loop}
    (hfr : frame < 2 ^ 64 - 1)
    (ha : Acct frame F w k st) (hm : Moved frame F w s k st)
    (h : iterate1 frame F st = some st1) : Moved frame F w s (k + 1) st1 := by
  obtain ⟨hrem, hb⟩ := iterate1_some h
  obtain ⟨hrc, -, -, -, -, hw⟩ := loopBody_next hb
  have hlt : loadedAt frame F k < F := by have := ha.remaining; omega
  have hblk := blockSizeOf_loadedAt frame F k hlt
  rw [ha.remaining, hblk] at hrc hw
  have hsucc := loadedAt_succ frame F k
  have hbf : blockAt frame F k < 2 ^ 64 - 1 := by
    have : blockAt frame F k ≤ frame := by
      rw [← hblk]; unfold blockSizeOf; split <;> omega
    omega
  obtain ⟨r1, r2, r3⟩ := sysRead_full hm.fd hrc hbf
  simp only at r1 r2 r3
  have hlenL : ((s.data.drop s.pos).take (loadedAt frame F k)).length = loadedAt frame F k := by
    have := hm.avail
    simp only [List.length_take, List.length_drop]; omega
  have hlenB : ((s.data.drop (s.pos + loadedAt frame F k)).take (blockAt frame F k)).length =
      blockAt frame F k := by
    simp only [List.length_take, List.length_drop]; omega
  constructor
  · rw [hw]; simp only
    rw [r3, ← hsucc, List.tail_drop]
    simp [Nat.add_assoc]
  · have := hm.avail
    rw [← hsucc]; omega
  · rw [hw]; simp only
    rw [r2, hm.mem, ha.ptr, ← hsucc, List.take_add, List.drop_drop]
    have := memcpy_overlay w.mem st.localBuffer ((s.data.drop s.pos).take (loadedAt frame F k))
      ((s.data.drop (s.pos + loadedAt frame F k)).take (blockAt frame F k))
    rw [hlenL, hlenB] at this
    exact this

theorem moved_of_iterations {frame F : Nat} {w : World} {s : Source} (hF : F < 2 ^ 64)
    (hfr : frame < 2 ^ 64 - 1) (hfd : w.fd = some s) :
    ∀ (k : Nat) (st : Loop), iterations frame F k (fillInit F w) = some st →
      Moved frame F w s k st := by
  intro k
  induction k with
  | zero =>
    intro st h
    simp only [iterations, Option.some.injEq] at h
    rw [← h]; exact moved_init frame F w s hfd
  | succ k ih =>
    intro st h
    rw [iterations_succ_last] at h
    cases hk : iterations frame F k (fillInit F w) with
    | none => simp [hk] at h
    | some st0 =>
      rw [hk] at h
      exact moved_step hfr (acct_of_iterations hF k st0 hk) (ih st0 hk) h

/-! ## Whole runs of the loop -/

theorem loadedAt_self (frame F : Nat) (h : 1 ≤ frame) : loadedAt frame F F = F := by
  unfold loadedAt
  have : F * 1 ≤ F * frame := Nat.mul_le_mul_left _ h
  omega

/-- The three ways the loop of `fillBuffer` can be left, each after some number `k` of complete
iterations: through its condition, through `exit(1)` in iteration `k`, or not at all. -/
theorem fillLoop_run (frame F : Nat) (w : World) :
    ∃ k st, k ≤ F ∧ iterations frame F k (fillInit F { w with entered := true }) = some st ∧
      ((st.bytesRemaining = 0 ∧ fillLoop frame F w = (Outcome.returned, st)) ∨
       (st.bytesRemaining ≠ 0 ∧ ∃ st1, loopBody frame F st = Step.exit1 st1 ∧
          fillLoop frame F w = (Outcome.exited 1, st1)) ∨
       (st.bytesRemaining ≠ 0 ∧ k = F ∧ fillLoop frame F w = (Outcome.diverged, st))) := by
  obtain ⟨k, st, hk, hit, hc⟩ :=
    transferLoop_spec frame F F (fillInit F { w with entered := true })
  refine ⟨k, st, hk, hit, ?_⟩
  rcases hc with h | ⟨h1, -, h2⟩ | h
  · exact Or.inl h
  · exact Or.inr (Or.inl ⟨h1, h2⟩)
  · exact Or.inr (Or.inr h)

/-- With a chunk size of at least one byte the loop of `fillBuffer` is left after at most
`fileSize` iterations. -/
theorem fillLoop_terminates {frame F : Nat} (w : World) (hF : F < 2 ^ 64) (hfr : 1 ≤ frame) :
    (fillLoop frame F w).1 ≠ Outcome.diverged := by
  obtain ⟨k, st, -, hit, hc⟩ := fillLoop_run frame F w
  rcases hc with ⟨-, h⟩ | ⟨-, st1, -, h⟩ | ⟨h1, h2, -⟩
  · rw [h]; simp
  · rw [h]; simp
  · exfalso
    have ha := acct_of_iterations hF k st hit
    have := ha.remaining
    rw [h2, loadedAt_self frame F hfr] at this
    omega

theorem fillBufferWith_fst (frame F : Nat) (w : World) :
    (fillBufferWith frame F w).1 =
      if w.allocOk then (fillLoop frame F w).1 else Outcome.thrown := by
  unfold fillBufferWith
  split
  · split <;> simp_all
  · rfl

theorem fillBufferWith_world (frame F : Nat) (w : World) (h : w.allocOk = true) :
    (fillBufferWith frame F w).2 =
      if (fillLoop frame F w).1 = Outcome.returned then
        { (fillLoop frame F w).2.w with shown := (fillLoop frame F w).2.w.shown ++ [100] }
      else (fillLoop frame F w).2.w := by
  unfold fillBufferWith
  rw [if_pos h]
  split
  · rename_i st heq; simp [heq]
  · rename_i o st hne heq
    have : o ≠ Outcome.returned := fun ho => hne ho
    simp [heq, this]

/-! ## Opening the file and asking for its length -/

theorem toSizeT_lt (i : Int) : toSizeT i < 2 ^ 64 := by
  unfold toSizeT
  have h : i % 2 ^ 64 < 2 ^ 64 := Int.emod_lt_of_pos _ (by norm_num)
  have h0 : 0 ≤ i % 2 ^ 64 := Int.emod_nonneg _ (by norm_num)
  omega

theorem toSizeT_natCast (n : Nat) (h : n < 2 ^ 64) : toSizeT (n : Int) = n := by
  unfold toSizeT
  have : ((n : Int)) % 2 ^ 64 = n := Int.emod_eq_of_lt (by omega) (by omega)
  rw [this]; simp

theorem sysOpen_some {w : World} {filename : String} {s : Source}
    (h : sysOpen w filename = some s) :
    ∃ f, w.disk filename = some f ∧
      s = { data := f.data, pos := 0, seekable := f.seekable, faults := f.faults } := by
  unfold sysOpen at h
  cases hd : w.disk filename with
  | none => simp [hd] at h
  | some f => exact ⟨f, rfl, by simp [hd] at h; exact h.symm⟩

theorem sysOpen_pos {w : World} {filename : String} {s : Source}
    (h : sysOpen w filename = some s) : s.pos = 0 := by
  obtain ⟨f, -, hs⟩ := sysOpen_some h
  rw [hs]

/-- The length query on a descriptor at offset 0 leaves the world as it was. -/
theorem getFileSize_opened (w : World) (s : Source) (hpos : s.pos = 0) :
    getFileSize { w with fd := some s } =
      (toSizeT (if s.seekable = true ∧ s.data.length < 2 ^ 63 then (s.data.length : Int) else -1),
        { w with fd := some s }) := by
  obtain ⟨d, p, sk, fl⟩ := s
  simp only at hpos
  subst hpos
  cases sk
  · simp [getFileSize, lseek0, Source.lseek0]
  · by_cases hl : d.length < 2 ^ 63
    · simp only [getFileSize, lseek0, Source.lseek0, true_and, hl, if_true]
    · simp only [getFileSize, lseek0, Source.lseek0, true_and, hl, if_true, if_false]

theorem execute_opened {w : World} {filename : String} {s : Source}
    (h : sysOpen w filename = some s) :
    execute filename w =
      if w.contigBuffer.mapOk = true then
        if (getFileSize { w with fd := some s }).1 > w.contigBuffer.size then
          (Outcome.exited 1, { w with fd := some s, diag := w.diag ++
            [Diag.wontFit (getFileSize { w with fd := some s }).1 w.contigBuffer.size] })
        else
          match fillBuffer (getFileSize { w with fd := some s }).1 { w with fd := some s } with
          | (Outcome.returned, w2) => (Outcome.returned, { w2 with fd := none })
          | (o, w2) => (o, w2)
      else (Outcome.thrown, { w with fd := some s }) := by
  have h2 := getFileSize_opened w s (sysOpen_pos h)
  unfold execute
  rw [h]
  simp only
  have hw : (getFileSize { w with fd := some s }).2 = { w with fd := some s } := by rw [h2]
  rw [hw]

/-! ## Complete and failed runs -/

theorem bytesOf_overlay (mem : Mem) (bs : List Byte) : bytesOf (overlay mem bs) bs.length = bs := by
  unfold bytesOf overlay
  apply List.ext_getElem
  · simp
  · intro i h1 h2
    simp only [List.length_map, List.length_range] at h1
    simp only [List.getElem_map, List.getElem_range]
    exact List.getD_eq_getElem _ _ h2

theorem overlay_of_le (mem : Mem) (bs : List Byte) (a : Nat) (h : bs.length ≤ a) :
    overlay mem bs a = mem a := by
  unfold overlay
  exact List.getD_eq_default _ _ h

/-- A loop of `fillBuffer` that is left through its condition has loaded everything: the counters,
the file offset and the region are those of a complete copy. -/
theorem fillLoop_returned {frame F : Nat} {w : World} {s : Source} (hF : F < 2 ^ 64)
    (hfr : frame < 2 ^ 64 - 1) (hfd : w.fd = some s)
    (hret : (fillLoop frame F w).1 = Outcome.returned) :
    (fillLoop frame F w).2.bytesLoaded = F ∧ (fillLoop frame F w).2.bytesRemaining = 0 ∧
    (fillLoop frame F w).2.ptr = F ∧ F ≤ s.data.length - s.pos ∧
    (fillLoop frame F w).2.w.mem = overlay w.mem ((s.data.drop s.pos).take F) := by
  obtain ⟨k, st, -, hit, hc⟩ := fillLoop_run frame F w
  have ha := acct_of_iterations hF k st hit
  have hm := moved_of_iterations (s := s) hF hfr (by simpa using hfd) k st hit
  have hle := loadedAt_le frame F k
  rcases hc with ⟨h0, h⟩ | ⟨-, st1, -, h⟩ | ⟨-, -, h⟩
  · have hL : loadedAt frame F k = F := by have := ha.remaining; omega
    rw [h]
    refine ⟨?_, h0, ?_, ?_, ?_⟩
    · rw [← hL]; exact ha.loaded
    · rw [← hL]; exact ha.ptr
    · rw [← hL]; exact hm.avail
    · have := hm.mem
      rw [hL] at this
      exact this
  · rw [h] at hret; simp at hret
  · rw [h] at hret; simp at hret

/-- A loop of `fillBuffer` that is not left through its condition ended in `exit(1)` right after
a read whose count differs from the request, the last read of the record. -/
theorem fillLoop_failed {frame F : Nat} {w : World} (hF : F < 2 ^ 64) (hfr : 1 ≤ frame)
    (hret : (fillLoop frame F w).1 ≠ Outcome.returned) :
    (fillLoop frame F w).1 = Outcome.exited 1 ∧
    ∃ n rc, rc ≠ n ∧ ∃ k, (fillLoop frame F w).2.w.reads = w.reads ++
      (List.range k).map (fun j => (blockAt frame F j, blockAt frame F j)) ++ [(n, rc)] := by
  obtain ⟨k, st, -, hit, hc⟩ := fillLoop_run frame F w
  have ha := acct_of_iterations hF k st hit
  rcases hc with ⟨-, h⟩ | ⟨-, st1, hb, h⟩ | ⟨-, -, h⟩
  · rw [h] at hret; simp at hret
  · obtain ⟨hne, hst1⟩ := loopBody_exit1 hb
    rw [h]
    refine ⟨rfl, _, _, hne, k, ?_⟩
    rw [hst1]
    simp only
    rw [(sysRead_fields _ _ _).1, ha.reads]
  · exact absurd h (by
      intro hd
      exact fillLoop_terminates w hF hfr (by rw [hd]))

theorem transferLoop_of_iterations (frame F : Nat) :
    ∀ (k : Nat) (st0 st : Loop) (fuel : Nat), iterations frame F k st0 = some st →
      transferLoop frame F (k + fuel) st0 = transferLoop frame F fuel st := by
  intro k
  induction k with
  | zero =>
    intro st0 st fuel h
    simp only [iterations, Option.some.injEq] at h
    rw [h, Nat.zero_add]
  | succ k ih =>
    intro st0 st fuel h
    rw [iterations] at h
    cases h1 : iterate1 frame F st0 with
    | none => simp [h1] at h
    | some st1 =>
      rw [h1] at h
      simp only [Option.some_bind] at h
      obtain ⟨hrem, hb⟩ := iterate1_some h1
      have : k + 1 + fuel = (k + fuel) + 1 := by omega
      rw [this, transferLoop, if_neg hrem, hb]
      exact ih st1 st fuel h

theorem loopBody_of_short {frame F : Nat} {st : Loop}
    (h : (sysRead st.w st.localBuffer (blockSizeOf frame st.bytesRemaining)).1 ≠
      blockSizeOf frame st.bytesRemaining) :
    loopBody frame F st = Step.exit1 { st with
      w := { (sysRead st.w st.localBuffer (blockSizeOf frame st.bytesRemaining)).2.2 with
        diag := st.w.diag ++ [Diag.readError] },
      localBuffer := (sysRead st.w st.localBuffer (blockSizeOf frame st.bytesRemaining)).2.1 } := by
  cases hb : loopBody frame F st with
  | next st1 => exact absurd (loopBody_next hb).1 h
  | exit1 st1 => rw [(loopBody_exit1 hb).2]

/-- After any run of the loop of `fillBuffer`, whichever way it is left, the records and counters
are those of the last iteration boundary reached, apart from the failed read and its diagnostic. -/
theorem fillLoop_last (frame F : Nat) (w : World) (hF : F < 2 ^ 64) :
    ∃ k st, iterations frame F k (fillInit F { w with entered := true }) = some st ∧
      Acct frame F { w with entered := true } k st ∧
      (fillLoop frame F w).2.w.shown = st.w.shown ∧
      (fillLoop frame F w).2.w.writes = st.w.writes ∧
      (fillLoop frame F w).2.w.mem = st.w.mem ∧
      (fillLoop frame F w).2.bytesLoaded = st.bytesLoaded ∧
      (fillLoop frame F w).2.bytesRemaining = st.bytesRemaining ∧
      (fillLoop frame F w).2.ptr = st.ptr ∧
      ((fillLoop frame F w).1 = Outcome.returned → (fillLoop frame F w).2 = st ∧
        st.bytesRemaining = 0) := by
  obtain ⟨k, st, -, hit, hc⟩ := fillLoop_run frame F w
  have ha := acct_of_iterations hF k st hit
  refine ⟨k, st, hit, ha, ?_⟩
  rcases hc with ⟨h0, h⟩ | ⟨-, st1, hb, h⟩ | ⟨-, -, h⟩
  · rw [h]; exact ⟨rfl, rfl, rfl, rfl, rfl, rfl, fun _ => ⟨rfl, h0⟩⟩
  · obtain ⟨-, hst1⟩ := loopBody_exit1 hb
    obtain ⟨-, f2, f3, f4, -⟩ :=
      sysRead_fields st.w st.localBuffer (blockSizeOf frame st.bytesRemaining)
    rw [h, hst1]
    exact ⟨f4, f3, f2, rfl, rfl, rfl, fun hr => by simp at hr⟩
  · rw [h]; exact ⟨rfl, rfl, rfl, rfl, rfl, rfl, fun hr => by simp at hr⟩

theorem toInt_of_lt (n : Nat) (h : n < 2 ^ 31) : toInt n = n := by
  unfold toInt
  have h1 : n % 2 ^ 32 = n := Nat.mod_eq_of_lt (by omega)
  rw [h1, if_pos h]

/-- The printed percentage lies between 0 and 100 as long as no more than `fileSize` bytes are
counted as loaded, whether or not `100 * bytesLoaded` wraps. -/
theorem pctOf_bounds (b F : Nat) (hb : b ≤ F) : 0 ≤ pctOf b F ∧ pctOf b F ≤ 100 := by
  unfold pctOf
  have h1 : (100 * b) % 2 ^ 64 ≤ F * 100 := by
    have := Nat.mod_le (100 * b) (2 ^ 64)
    omega
  have h2 : (100 * b) % 2 ^ 64 / F ≤ 100 := Nat.div_le_of_le_mul h1
  rw [toInt_of_lt _ (by omega)]
  exact ⟨Int.natCast_nonneg _, by exact_mod_cast h2⟩

theorem sysRead_no_faults {w : World} {s : Source} (buf : Mem) {n : Nat} (hfd : w.fd = some s)
    (hf : s.faults = []) (hn : n ≤ s.data.length - s.pos) : (sysRead w buf n).1 = n := by
  unfold sysRead
  rw [hfd]
  simp only [Source.read, hf, List.length_take, List.length_drop]
  omega

/-- A source that delivers whatever is asked for and holds `fileSize` bytes from its offset on
lets the loop of `fillBuffer` run to its normal exit. -/
theorem fillLoop_no_faults {frame F : Nat} {w : World} {s : Source} (hF : F < 2 ^ 64)
    (hfr : 1 ≤ frame) (hfr2 : frame < 2 ^ 64 - 1) (hfd : w.fd = some s) (hf : s.faults = [])
    (hn : F ≤ s.data.length - s.pos) : (fillLoop frame F w).1 = Outcome.returned := by
  obtain ⟨k, st, -, hit, hc⟩ := fillLoop_run frame F w
  have ha := acct_of_iterations hF k st hit
  have hm := moved_of_iterations (s := s) hF hfr2 (by simpa using hfd) k st hit
  rcases hc with ⟨-, h⟩ | ⟨hrem, st1, hb, -⟩ | ⟨-, -, h⟩
  · rw [h]
  · exfalso
    obtain ⟨hne, -⟩ := loopBody_exit1 hb
    have hlt : loadedAt frame F k < F := by have := ha.remaining; omega
    rw [ha.remaining, blockSizeOf_loadedAt frame F k hlt] at hne
    apply hne
    apply sysRead_no_faults _ hm.fd
    · simp [hf]
    · have h1 := loadedAt_succ frame F k
      have h2 := loadedAt_le frame F (k + 1)
      simp only
      omega
  · exact absurd (by rw [h]) (fillLoop_terminates w hF hfr)

theorem execute_accepted {w : World} {filename : String} {s : Source}
    (hopen : sysOpen w filename = some s) (hmap : w.contigBuffer.mapOk = true)
    (hfit : (getFileSize { w with fd := some s }).1 ≤ w.contigBuffer.size) :
    (execute filename w).1 =
      (fillBuffer (getFileSize { w with fd := some s }).1 { w with fd := some s }).1 ∧
    (execute filename w).2.mem =
      (fillBuffer (getFileSize { w with fd := some s }).1 { w with fd := some s }).2.mem ∧
    (execute filename w).2.shown =
      (fillBuffer (getFileSize { w with fd := some s }).1 { w with fd := some s }).2.shown ∧
    (execute filename w).2.reads =
      (fillBuffer (getFileSize { w with fd := some s }).1 { w with fd := some s }).2.reads ∧
    (execute filename w).2.writes =
      (fillBuffer (getFileSize { w with fd := some s }).1 { w with fd := some s }).2.writes ∧
    (execute filename w).2.entered =
      (fillBuffer (getFileSize { w with fd := some s }).1 { w with fd := some s }).2.entered ∧
    (execute filename w).2.diag =
      (fillBuffer (getFileSize { w with fd := some s }).1 { w with fd := some s }).2.diag := by
  rw [execute_opened hopen, if_pos hmap, if_neg (Nat.not_lt.mpr hfit)]
  split
  · rename_i w2 heq
    rw [heq]
    exact ⟨rfl, rfl, rfl, rfl, rfl, rfl, rfl⟩
  · rename_i o w2 hne heq
    rw [heq]
    exact ⟨rfl, rfl, rfl, rfl, rfl, rfl, rfl⟩

/-- What a complete run of `fillBuffer` prints: 0, one value per chunk, 100. -/
theorem fillBuffer_shown_of_returned {F : Nat} {w : World} (hF : F < 2 ^ 64)
    (halloc : w.allocOk = true) (hret : (fillLoop FRAME_SIZE F w).1 = Outcome.returned) :
    ∃ k, loadedAt FRAME_SIZE F k = F ∧
      (fillBuffer F w).2.shown = w.shown ++
        0 :: (List.range k).map (fun j => pctOf (loadedAt FRAME_SIZE F (j + 1)) F) ++ [100] := by
  obtain ⟨k, st, -, ha, hs, -, -, -, -, -, hr⟩ := fillLoop_last FRAME_SIZE F w hF
  obtain ⟨-, h0⟩ := hr hret
  refine ⟨k, ?_, ?_⟩
  · have := ha.remaining
    have := loadedAt_le FRAME_SIZE F k
    omega
  · unfold fillBuffer
    rw [fillBufferWith_world _ _ _ halloc, if_pos hret]
    simp only
    rw [hs, ha.shown]

theorem hugeFile_length : hugeFile.data.length = 2 ^ 58 := List.length_replicate _ _

theorem getFileSize_lt (w : World) : (getFileSize w).1 < 2 ^ 64 := toSizeT_lt _

/-- The outcome of `execute` once the file is open. -/
theorem execute_fst {w : World} {filename : String} {s : Source}
    (hopen : sysOpen w filename = some s) :
    (execute filename w).1 =
      if w.contigBuffer.mapOk = true then
        if (getFileSize { w with fd := some s }).1 > w.contigBuffer.size then Outcome.exited 1
        else if w.allocOk = true then
          (fillLoop FRAME_SIZE (getFileSize { w with fd := some s }).1 { w with fd := some s }).1
        else Outcome.thrown
      else Outcome.thrown := by
  by_cases hmap : w.contigBuffer.mapOk = true
  · by_cases hfit : (getFileSize { w with fd := some s }).1 ≤ w.contigBuffer.size
    · rw [(execute_accepted hopen hmap hfit).1, if_pos hmap, if_neg (Nat.not_lt.mpr hfit)]
      unfold fillBuffer
      rw [fillBufferWith_fst]
    · rw [execute_opened hopen, if_pos hmap, if_pos (Nat.lt_of_not_le hfit), if_pos hmap,
        if_pos (Nat.lt_of_not_le hfit)]
  · rw [execute_opened hopen, if_neg hmap, if_neg hmap]

theorem main_fst (filename : String) (w : World) :
    (main (some filename) w).1 =
      if (execute filename w).1 = Outcome.thrown then Outcome.exited 1
      else (execute filename w).1 := by
  unfold main
  simp only
  split
  · rename_i w1 heq
    rw [heq]; simp
  · rename_i o w1 hne heq
    rw [heq]
    have : o ≠ Outcome.thrown := fun h => hne h
    simp [this]

/-- The loop of `fillBuffer` is left either through its condition or through `exit(1)`. -/
theorem fillLoop_fst (F : Nat) (w : World) (hF : F < 2 ^ 64) :
    (fillLoop FRAME_SIZE F w).1 = Outcome.returned ∨
    (fillLoop FRAME_SIZE F w).1 = Outcome.exited 1 := by
  by_cases h : (fillLoop FRAME_SIZE F w).1 = Outcome.returned
  · exact Or.inl h
  · exact Or.inr (fillLoop_failed hF (by decide) h).1

/-- As long as `100 * fileSize` fits 64 bits, the printed value is the exact quotient. -/
theorem pctOf_exact (b F : Nat) (hb : b ≤ F) (hF : 100 * F < 2 ^ 64) :
    pctOf b F = ((100 * b / F : Nat) : Int) := by
  unfold pctOf
  have h1 : (100 * b) % 2 ^ 64 = 100 * b := Nat.mod_eq_of_lt (by omega)
  have h2 : 100 * b / F ≤ 100 := Nat.div_le_of_le_mul (by omega)
  rw [h1, toInt_of_lt _ (by omega)]

/-- As long as `100 * fileSize` fits 64 bits, the percentages printed by a complete run of
`fillBuffer` are non-decreasing, and the last one is 100 in any case. -/
theorem progress_nondecreasing_of_small {F : Nat} {w : World} (hF : 100 * F < 2 ^ 64)
    (halloc : w.allocOk = true) (hret : (fillLoop FRAME_SIZE F w).1 = Outcome.returned) :
    List.Pairwise (· ≤ ·) ((fillBuffer F w).2.shown.drop w.shown.length) ∧
    (fillBuffer F w).2.shown.getLast? = some 100 := by
  obtain ⟨k, -, hshown⟩ := fillBuffer_shown_of_returned (by omega) halloc hret
  rw [hshown]
  refine ⟨?_, List.getLast?_concat _⟩
  rw [List.append_assoc, List.drop_left, List.cons_append, List.pairwise_cons]
  constructor
  · intro a ha
    rcases List.mem_append.mp ha with h | h
    · obtain ⟨j, -, hj⟩ := List.mem_map.mp h
      rw [← hj]
      exact (pctOf_bounds _ _ (loadedAt_le _ _ _)).1
    · rw [List.mem_singleton.mp h]; decide
  · rw [List.pairwise_append]
    refine ⟨?_, List.pairwise_singleton _ _, ?_⟩
    · rw [List.pairwise_map]
      apply (List.pairwise_lt_range k).imp
      intro a b hab
      rw [pctOf_exact _ _ (loadedAt_le _ _ _) hF, pctOf_exact _ _ (loadedAt_le _ _ _) hF]
      have hm := loadedAt_mono FRAME_SIZE F (show a + 1 ≤ b + 1 by omega)
      exact_mod_cast Nat.div_le_div_right (Nat.mul_le_mul_left 100 hm)
    · intro a ha b hb
      obtain ⟨j, -, hj⟩ := List.mem_map.mp ha
      rw [List.mem_singleton.mp hb, ← hj]
      exact (pctOf_bounds _ _ (loadedAt_le _ _ _)).2

/-- On a seekable descriptor `getFileSize` ends with the rewind to offset 0, wherever the
descriptor stood before; on one that is not seekable both seeks fail and the offset stays. -/
theorem getFileSize_rewinds (w : World) (s : Source) (hfd : w.fd = some s) :
    (getFileSize w).2.fd = some (if s.seekable = true then { s with pos := 0 } else s) := by
  obtain ⟨d, p, sk, fl⟩ := s
  cases sk
  · simp [getFileSize, lseek0, Source.lseek0, hfd]
  · by_cases hl : d.length < 2 ^ 63
    · simp only [getFileSize, lseek0, Source.lseek0, hfd, true_and, hl, if_true]
    · simp only [getFileSize, lseek0, Source.lseek0, hfd, true_and, hl, if_true, if_false]

/-! ## The claims -/

/-- Claim C1. Whenever `execute` finds a regular file whose length fits the mapped region (the
boundary case of equal sizes included), the staging buffer is allocated, and every `read` it
issues returns the count requested, `execute` and with it `fillBuffer` run to completion: the loop
is left with `bytesLoaded == fileSize` and `bytesRemaining == 0`, and the first `fileSize` bytes
of the region are the bytes of the file, in their order. The length is below `2 ^ 63` because it
is an `off64_t`. -/
theorem C1_full_load_copies_source (w : World) (filename : String) (f : File)
    (hfile : w.disk filename = some f) (hseek : f.seekable = true)
    (hlen : f.data.length < 2 ^ 63)
    (hmap : w.contigBuffer.mapOk = true) (halloc : w.allocOk = true)
    (hcap : f.data.length ≤ w.contigBuffer.size)
    (hfull : ∀ r ∈ (execute filename w).2.reads.drop w.reads.length, r.2 = r.1) :
    (execute filename w).1 = Outcome.returned ∧
    (fillLoop FRAME_SIZE f.data.length { w with fd := sysOpen w filename }).2.bytesLoaded =
      f.data.length ∧
    (fillLoop FRAME_SIZE f.data.length { w with fd := sysOpen w filename }).2.bytesRemaining = 0 ∧
    bytesOf (execute filename w).2.mem f.data.length = f.data := by
  obtain ⟨s, hopen, hsd, hsp, hss⟩ : ∃ s, sysOpen w filename = some s ∧ s.data = f.data ∧
      s.pos = 0 ∧ s.seekable = f.seekable := by
    exact ⟨_, by simp only [sysOpen, hfile, Option.map_some']; rfl, rfl, rfl, rfl⟩
  have hF : f.data.length < 2 ^ 64 := by omega
  have hsz := getFileSize_opened w s hsp
  rw [hss, hsd] at hsz
  simp only [hseek, hlen, and_self, if_true] at hsz
  rw [toSizeT_natCast _ hF] at hsz
  have hex := execute_opened hopen
  rw [hsz] at hex
  simp only [hmap, if_true, gt_iff_lt, Nat.not_lt.mpr hcap, if_false] at hex
  rw [hopen]
  generalize hw1 : ({ w with fd := some s } : World) = w1 at hex ⊢
  have hw1a : w1.allocOk = true := by rw [← hw1]; exact halloc
  have hw1r : w1.reads = w.reads := by rw [← hw1]
  have hw1m : w1.mem = w.mem := by rw [← hw1]
  have hfd : w1.fd = some s := by rw [← hw1]
  have hfb1 := fillBufferWith_fst FRAME_SIZE f.data.length w1
  have hfb2 := fillBufferWith_world FRAME_SIZE f.data.length w1 hw1a
  rw [if_pos hw1a] at hfb1
  have hret : (fillLoop FRAME_SIZE f.data.length w1).1 = Outcome.returned := by
    by_contra hne
    obtain ⟨-, n, rc, hrc, k, hreads⟩ := fillLoop_failed (w := w1) hF (by decide) hne
    have hex2 : (execute filename w).2.reads = (fillLoop FRAME_SIZE f.data.length w1).2.w.reads := by
      rw [hex]
      unfold fillBuffer
      rw [if_neg hne] at hfb2
      split
      · rename_i w2 heq
        rw [heq] at hfb1
        exact absurd hfb1.symm hne
      · rename_i o w2 hno heq
        rw [heq] at hfb2
        simp only at hfb2 ⊢
        rw [hfb2]
    have : (n, rc) ∈ (execute filename w).2.reads.drop w.reads.length := by
      rw [hex2, hreads, hw1r, List.append_assoc, List.drop_left]
      simp
    exact hrc (hfull _ this)
  obtain ⟨h1, h2, -, -, h5⟩ := fillLoop_returned hF (by decide) hfd hret
  rw [if_pos hret] at hfb2
  have hfbeq : fillBuffer f.data.length w1 = (Outcome.returned,
      { (fillLoop FRAME_SIZE f.data.length w1).2.w with
        shown := (fillLoop FRAME_SIZE f.data.length w1).2.w.shown ++ [100] }) := by
    unfold fillBuffer
    rw [← hfb2, ← hret, ← hfb1]
  rw [hfbeq] at hex
  simp only at hex
  refine ⟨by rw [hex], h1, h2, ?_⟩
  rw [hex]
  simp only
  rw [h5, hw1m, hsp, hsd]
  simp only [List.drop_zero]
  rw [List.take_of_length_le (le_refl _)]
  exact bytesOf_overlay _ _

/-- Witness for C1: a file of three bytes loaded into a region of exactly three bytes. -/
theorem C1_full_load_copies_source_witness :
    (execute "data.bin" exactFit).1 = Outcome.returned ∧
    bytesOf (execute "data.bin" exactFit).2.mem 3 = [1, 2, 3] ∧
    bytesOf (execute "data.bin" exactFit).2.mem 5 = [1, 2, 3, 9, 9] :=
  ⟨(C1_full_load_copies_source exactFit "data.bin" threeBytes rfl rfl (by decide) rfl rfl
      (by decide) (by decide)).1,
   (C1_full_load_copies_source exactFit "data.bin" threeBytes rfl rfl (by decide) rfl rfl
      (by decide) (by decide)).2.2.2, by decide⟩

/-- Claim C2. When the size returned by `getFileSize` exceeds the capacity of the region,
`execute` does not return normally and `fillBuffer` is never called: the record of calls, reads
and writes, the bytes of the region and the percentages printed are what they were. Once the
region is mapped, the way out is `exit(1)` after the diagnostic that reports both sizes. -/
theorem C2_oversized_file_rejected (w : World) (filename : String) (s : Source)
    (hopen : sysOpen w filename = some s)
    (hbig : (getFileSize { w with fd := some s }).1 > w.contigBuffer.size) :
    (execute filename w).1 ≠ Outcome.returned ∧
    (w.contigBuffer.mapOk = true →
      (execute filename w).1 = Outcome.exited 1 ∧
      (execute filename w).2.diag = w.diag ++
        [Diag.wontFit (getFileSize { w with fd := some s }).1 w.contigBuffer.size]) ∧
    (execute filename w).2.entered = w.entered ∧
    (execute filename w).2.reads = w.reads ∧
    (execute filename w).2.writes = w.writes ∧
    (execute filename w).2.mem = w.mem ∧
    (execute filename w).2.shown = w.shown := by
  rw [execute_opened hopen, if_pos hbig]
  cases hmap : w.contigBuffer.mapOk <;> simp

/-- Witness for C2: a file of three bytes and a region of two. -/
theorem C2_oversized_file_rejected_witness :
    (execute "data.bin" tooSmall).1 = Outcome.exited 1 ∧
    (execute "data.bin" tooSmall).2.diag = [Diag.wontFit 3 2] ∧
    (execute "data.bin" tooSmall).2.reads = [] ∧
    (execute "data.bin" tooSmall).2.writes = [] ∧
    bytesOf (execute "data.bin" tooSmall).2.mem 3 = [9, 9, 9] :=
  have h := C2_oversized_file_rejected tooSmall "data.bin"
    { data := [1, 2, 3], pos := 0, seekable := true, faults := [] } rfl (by decide)
  ⟨(h.2.1 rfl).1, (h.2.1 rfl).2, h.2.2.2.1, h.2.2.2.2.1, by decide⟩

/-- Claim C3. Let `st` be the state of the loop of `fillBuffer` after any number `k` of
complete iterations, with bytes still to load. If the next `read` returns a count different from
the `blockSize` requested (fewer bytes, or the error value), the loop ends there with `exit(1)`:
there is no iteration `k + 1`, the failed read is the last read recorded, nothing more is copied
or printed, the counters stay as they were, and `fillBuffer` does not return. -/
theorem C3_short_read_is_fatal (frame F : Nat) (w : World) (k : Nat) (st : Loop)
    (hF : F < 2 ^ 64) (hfr : 1 ≤ frame) (halloc : w.allocOk = true)
    (hreach : iterations frame F k (fillInit F { w with entered := true }) = some st)
    (hrem : st.bytesRemaining ≠ 0)
    (hshort : (sysRead st.w st.localBuffer (blockSizeOf frame st.bytesRemaining)).1 ≠
      blockSizeOf frame st.bytesRemaining) :
    (∀ fuel, (transferLoop frame F (fuel + 1) st).1 = Outcome.exited 1) ∧
    iterations frame F (k + 1) (fillInit F { w with entered := true }) = none ∧
    (fillBufferWith frame F w).1 = Outcome.exited 1 ∧
    (fillBufferWith frame F w).2.reads = st.w.reads ++
      [(blockSizeOf frame st.bytesRemaining,
        (sysRead st.w st.localBuffer (blockSizeOf frame st.bytesRemaining)).1)] ∧
    (fillBufferWith frame F w).2.writes = st.w.writes ∧
    (fillBufferWith frame F w).2.mem = st.w.mem ∧
    (fillBufferWith frame F w).2.shown = st.w.shown ∧
    (fillLoop frame F w).2.bytesLoaded = st.bytesLoaded ∧
    (fillLoop frame F w).2.bytesRemaining = st.bytesRemaining := by
  obtain ⟨st1, hb, hst1⟩ : ∃ st1, loopBody frame F st = Step.exit1 st1 ∧ st1 = { st with
      w := { (sysRead st.w st.localBuffer (blockSizeOf frame st.bytesRemaining)).2.2 with
        diag := st.w.diag ++ [Diag.readError] },
      localBuffer := (sysRead st.w st.localBuffer (blockSizeOf frame st.bytesRemaining)).2.1 } :=
    ⟨_, loopBody_of_short hshort, rfl⟩
  have hrun : ∀ fuel, transferLoop frame F (fuel + 1) st = (Outcome.exited 1, st1) := by
    intro fuel
    rw [transferLoop, if_neg hrem, hb]
  have ha := acct_of_iterations hF k st hreach
  have hk : k < F := by
    have h1 := ha.remaining
    have h2 : loadedAt frame F k < F := by omega
    unfold loadedAt at h2
    have h3 : k * 1 ≤ k * frame := Nat.mul_le_mul_left _ hfr
    omega
  have hloop : fillLoop frame F w = (Outcome.exited 1, st1) := by
    unfold fillLoop
    have h1 := transferLoop_of_iterations frame F k _ st (F - k) hreach
    have h2 : k + (F - k) = F := by omega
    have h3 : F - k = (F - k - 1) + 1 := by omega
    rw [h2] at h1
    rw [h1, h3]
    exact hrun _
  have hw := fillBufferWith_world frame F w halloc
  have h1 := fillBufferWith_fst frame F w
  rw [if_pos halloc] at h1
  rw [hloop] at hw h1
  simp only [reduceCtorEq, if_false] at hw
  obtain ⟨f1, f2, f3, f4, -⟩ :=
    sysRead_fields st.w st.localBuffer (blockSizeOf frame st.bytesRemaining)
  refine ⟨fun fuel => by rw [hrun fuel], ?_, h1, ?_, ?_, ?_, ?_, ?_, ?_⟩
  · rw [iterations_succ_last, hreach]
    simp [iterate1, hrem, hb]
  · rw [hw, hst1]; exact f1
  · rw [hw, hst1]; exact f3
  · rw [hw, hst1]; exact f2
  · rw [hw, hst1]; exact f4
  · rw [hloop, hst1]
  · rw [hloop, hst1]

/-- Witness for C3: five bytes announced, three in the file, chunks of two: the second read
comes back with one byte and ends the run. -/
theorem C3_short_read_is_fatal_witness :
    (fillBufferWith 2 5 truncated).1 = Outcome.exited 1 ∧
    (fillBufferWith 2 5 truncated).2.reads = [(2, 2), (2, 1)] ∧
    (fillBufferWith 2 5 truncated).2.writes = [(0, 2)] ∧
    bytesOf (fillBufferWith 2 5 truncated).2.mem 5 = [1, 2, 9, 9, 9] :=
  have h := C3_short_read_is_fatal 2 5 truncated 1
    ((iterations 2 5 1 (fillInit 5 { truncated with entered := true })).getD
      (fillInit 5 truncated))
    (by decide) (by decide) rfl rfl (by decide) (by decide)
  ⟨h.2.2.1, by decide, by decide, by decide⟩

/-- Claim C4, evaluated on a file of `2 ^ 58` bytes in a region of the same size: the load
completes, the value printed after chunk 171798691 is 63, and the value printed after the next
chunk is 0, because `100 * bytesLoaded` has wrapped modulo `2 ^ 64`. The percentages printed are
therefore not non-decreasing. -/
theorem C4_progress_drops_on_huge_file :
    (execute "huge.bin" hugeWorld).1 = Outcome.returned ∧
    (execute "huge.bin" hugeWorld).2.shown[171798691]? = some 63 ∧
    (execute "huge.bin" hugeWorld).2.shown[171798692]? = some 0 ∧
    ¬ List.Pairwise (· ≤ ·) (execute "huge.bin" hugeWorld).2.shown := by
  obtain ⟨s, hopen, hsd, hsp, hss, hsf⟩ : ∃ s, sysOpen hugeWorld "huge.bin" = some s ∧
      s.data = hugeFile.data ∧ s.pos = 0 ∧ s.seekable = true ∧ s.faults = [] :=
    ⟨_, rfl, rfl, rfl, rfl, rfl⟩
  have hsl : s.data.length = 2 ^ 58 := by rw [hsd]; exact hugeFile_length
  have hsz := getFileSize_opened hugeWorld s hsp
  rw [hss, hsl] at hsz
  simp only [true_and] at hsz
  rw [if_pos (by norm_num), toSizeT_natCast _ (by norm_num)] at hsz
  have hacc := execute_accepted hopen rfl (by rw [hsz]; exact le_refl _)
  rw [hsz] at hacc
  simp only at hacc
  generalize hw1 : ({ hugeWorld with fd := some s } : World) = w1 at hacc
  have hw1a : w1.allocOk = true := by rw [← hw1]; rfl
  have hw1s : w1.shown = [] := by rw [← hw1]; rfl
  have hfd : w1.fd = some s := by rw [← hw1]
  have hret : (fillLoop FRAME_SIZE (2 ^ 58) w1).1 = Outcome.returned :=
    fillLoop_no_faults (by norm_num) (by decide) (by decide) hfd hsf (by rw [hsl, hsp]; norm_num)
  obtain ⟨k, hk, hshown⟩ := fillBuffer_shown_of_returned (by norm_num) hw1a hret
  have hk2 : 171798692 ≤ k := by
    unfold loadedAt FRAME_SIZE at hk
    omega
  rw [hacc.1, hacc.2.2.1, hshown, hw1s]
  have e1 : ([] ++ (0 : Int) ::
      (List.range k).map (fun j => pctOf (loadedAt FRAME_SIZE (2 ^ 58) (j + 1)) (2 ^ 58)) ++
        [100])[171798691]? = some 63 := by
    rw [List.nil_append, List.cons_append, List.getElem?_cons_succ,
      List.getElem?_append_left (by simp; omega), List.getElem?_map,
      List.getElem?_range (by omega)]
    decide
  have e2 : ([] ++ (0 : Int) ::
      (List.range k).map (fun j => pctOf (loadedAt FRAME_SIZE (2 ^ 58) (j + 1)) (2 ^ 58)) ++
        [100])[171798692]? = some 0 := by
    rw [List.nil_append, List.cons_append, List.getElem?_cons_succ,
      List.getElem?_append_left (by simp; omega), List.getElem?_map,
      List.getElem?_range (by omega)]
    decide
  refine ⟨?_, e1, e2, ?_⟩
  · unfold fillBuffer
    rw [fillBufferWith_fst, if_pos hw1a, hret]
  · intro hp
    rw [List.pairwise_iff_getElem] at hp
    obtain ⟨h1, g1⟩ := List.getElem?_eq_some.mp e1
    obtain ⟨h2, g2⟩ := List.getElem?_eq_some.mp e2
    have := hp 171798691 171798692 h1 h2 (by norm_num)
    rw [g1, g2] at this
    exact absurd this (by decide)

/-- Claim C5. For every `fileSize` below `2 ^ 64`, every percentage that `fillBuffer` prints
lies between 0 and 100: the initial 0, the value of the 64-bit expression
`100 * bytesLoaded / fileSize` (wraparound included, converted to `int`) after each chunk, and
the final 100. The second part states the bound for the expression itself at every count of
loaded bytes up to `fileSize`. -/
theorem C5_percentage_in_range (F : Nat) (w : World) (hF : F < 2 ^ 64) :
    (∀ p ∈ (fillBuffer F w).2.shown.drop w.shown.length, 0 ≤ p ∧ p ≤ 100) ∧
    (∀ b, b ≤ F → 0 ≤ pctOf b F ∧ pctOf b F ≤ 100) := by
  refine ⟨?_, fun b hb => pctOf_bounds b F hb⟩
  intro p hp
  unfold fillBuffer at hp
  cases halloc : w.allocOk with
  | false =>
    simp [fillBufferWith, halloc] at hp
  | true =>
    rw [fillBufferWith_world _ _ _ halloc] at hp
    obtain ⟨k, st, -, ha, hs, -⟩ := fillLoop_last FRAME_SIZE F w hF
    have hmem : ∀ q ∈ (fillLoop FRAME_SIZE F w).2.w.shown.drop w.shown.length,
        0 ≤ q ∧ q ≤ 100 := by
      intro q hq
      rw [hs, ha.shown] at hq
      simp only [List.drop_left, List.mem_cons, List.mem_map, List.mem_range] at hq
      rcases hq with h0 | ⟨j, -, hj⟩
      · rw [h0]; omega
      · rw [← hj]; exact pctOf_bounds _ _ (loadedAt_le _ _ _)
    have hlen : w.shown.length ≤ (fillLoop FRAME_SIZE F w).2.w.shown.length := by
      rw [hs, ha.shown]; simp
    split at hp
    · simp only at hp
      rw [List.drop_append_of_le_length hlen, List.mem_append] at hp
      rcases hp with h1 | h1
      · exact hmem p h1
      · simp only [List.mem_singleton] at h1
        rw [h1]; omega
    · exact hmem p hp

/-- Witness for C5: the values printed in two sample runs, and the bound on a third. -/
theorem C5_percentage_in_range_witness :
    (fillBufferWith 2 5 truncated).2.shown = [0, 40] ∧
    (execute "data.bin" exactFit).2.shown = [0, 100, 100] ∧
    ∀ p ∈ (fillBuffer 3 truncated).2.shown.drop truncated.shown.length, 0 ≤ p ∧ p ≤ 100 :=
  ⟨by decide, by decide, (C5_percentage_in_range 3 truncated (by decide)).1⟩

/-- Counterexample for C6: loading an empty file into a region of 1024 bytes succeeds, and the
percentages printed are 0 and then 100, so 100 is not the only value shown. -/
theorem C6_zero_is_shown_before_hundred :
    (execute "empty.bin" emptyLoad).1 = Outcome.returned ∧
    (execute "empty.bin" emptyLoad).2.shown = [0, 100] ∧
    ¬ (execute "empty.bin" emptyLoad).2.shown = [100] := by
  decide

/-- Claim C6, amended. For every capacity, loading a regular file of length 0 succeeds once the
region is mapped and the staging buffer allocated: the loop runs zero iterations, `bytesLoaded`
stays 0, no read is issued, no byte of the region is written, and the progress output is the
initial 0 followed by 100, with no value printed between them. -/
theorem C6_empty_file_loads (w : World) (filename : String) (f : File)
    (hfile : w.disk filename = some f) (hempty : f.data = []) (hseek : f.seekable = true)
    (hmap : w.contigBuffer.mapOk = true) (halloc : w.allocOk = true) :
    execute filename w =
      (Outcome.returned, { w with fd := none, entered := true, shown := w.shown ++ [0, 100] }) ∧
    iterations FRAME_SIZE 0 1 (fillInit 0 { w with fd := sysOpen w filename, entered := true }) =
      none ∧
    (fillLoop FRAME_SIZE 0 { w with fd := sysOpen w filename }).2.bytesLoaded = 0 ∧
    (execute filename w).2.reads = w.reads ∧
    (execute filename w).2.writes = w.writes ∧
    (execute filename w).2.mem = w.mem ∧
    (execute filename w).2.shown = w.shown ++ [0, 100] := by
  obtain ⟨s, hopen, hsd, hsp, hss⟩ : ∃ s, sysOpen w filename = some s ∧ s.data = f.data ∧
      s.pos = 0 ∧ s.seekable = f.seekable := by
    exact ⟨_, by simp only [sysOpen, hfile, Option.map_some']; rfl, rfl, rfl, rfl⟩
  have hsz := getFileSize_opened w s hsp
  rw [hss, hsd, hempty] at hsz
  simp only [hseek, List.length_nil, true_and] at hsz
  rw [if_pos (by norm_num)] at hsz
  have h0 : toSizeT ((0 : Nat) : Int) = 0 := by decide
  rw [h0] at hsz
  have hex := execute_opened hopen
  rw [hsz] at hex
  simp only [hmap, if_true, gt_iff_lt, Nat.not_lt_zero, if_false] at hex
  have hfb : fillBuffer 0 { w with fd := some s } =
      (Outcome.returned, { w with fd := some s, entered := true, shown := w.shown ++ [0, 100] }) := by
    simp [fillBuffer, fillBufferWith, fillLoop, fillInit, transferLoop, halloc]
  rw [hfb] at hex
  simp only at hex
  rw [hex, hopen]
  refine ⟨rfl, ?_, ?_, rfl, rfl, rfl, rfl⟩
  · simp [iterations, iterate1, fillInit]
  · simp [fillLoop, fillInit, transferLoop]

/-- Witness for C6: the empty file and the region of 1024 bytes. -/
theorem C6_empty_file_loads_witness :
    execute "empty.bin" emptyLoad =
      (Outcome.returned,
        { emptyLoad with fd := none, entered := true, shown := emptyLoad.shown ++ [0, 100] }) ∧
    (execute "empty.bin" emptyLoad).2.reads = [] ∧
    (execute "empty.bin" emptyLoad).2.writes = [] :=
  have h := C6_empty_file_loads emptyLoad "empty.bin" emptyFile rfl rfl rfl rfl rfl
  ⟨h.1, h.2.2.2.1, h.2.2.2.2.1⟩

/-- Claim C7. With the chunk size as a parameter (a `uint32_t`), two runs of `fillBuffer` on
the same world that both complete, one with chunk size `c1` and one with `c2`, leave the same
bytes in the region and the same `bytesLoaded`, namely `fileSize` bytes of the source from its
offset on. (A run with chunk size 0 completes only for `fileSize == 0`, so the bound
`c >= 1` is not needed as a hypothesis.) -/
theorem C7_chunk_size_independence (w : World) (s : Source) (F c1 c2 : Nat)
    (hfd : w.fd = some s) (hF : F < 2 ^ 64) (hc1 : c1 < 2 ^ 32) (hc2 : c2 < 2 ^ 32)
    (hr1 : (fillBufferWith c1 F w).1 = Outcome.returned)
    (hr2 : (fillBufferWith c2 F w).1 = Outcome.returned) :
    (fillBufferWith c1 F w).2.mem = (fillBufferWith c2 F w).2.mem ∧
    (fillLoop c1 F w).2.bytesLoaded = (fillLoop c2 F w).2.bytesLoaded ∧
    (fillLoop c1 F w).2.bytesLoaded = F ∧
    (fillBufferWith c1 F w).2.mem = overlay w.mem ((s.data.drop s.pos).take F) := by
  have key : ∀ c, c < 2 ^ 32 → (fillBufferWith c F w).1 = Outcome.returned →
      (fillBufferWith c F w).2.mem = overlay w.mem ((s.data.drop s.pos).take F) ∧
      (fillLoop c F w).2.bytesLoaded = F := by
    intro c hc hr
    have halloc : w.allocOk = true := by
      rw [fillBufferWith_fst] at hr
      by_contra hne
      rw [if_neg hne] at hr
      exact absurd hr (by decide)
    rw [fillBufferWith_fst, if_pos halloc] at hr
    obtain ⟨h1, -, -, -, h5⟩ := fillLoop_returned hF (by omega) hfd hr
    rw [fillBufferWith_world _ _ _ halloc, if_pos hr]
    exact ⟨h5, h1⟩
  obtain ⟨m1, b1⟩ := key c1 hc1 hr1
  obtain ⟨m2, b2⟩ := key c2 hc2 hr2
  exact ⟨by rw [m1, m2], by rw [b1, b2], b1, m1⟩

/-- Witness for C7: three bytes loaded with chunk size 1 and with chunk size 4096. -/
theorem C7_chunk_size_independence_witness :
    (fillBufferWith 1 3 opened).1 = Outcome.returned ∧
    (fillBufferWith 4096 3 opened).1 = Outcome.returned ∧
    (fillBufferWith 1 3 opened).2.mem = (fillBufferWith 4096 3 opened).2.mem ∧
    (fillLoop 1 3 opened).2.bytesLoaded = (fillLoop 4096 3 opened).2.bytesLoaded ∧
    (fillBufferWith 1 3 opened).2.reads = [(1, 1), (1, 1), (1, 1)] ∧
    (fillBufferWith 4096 3 opened).2.reads = [(3, 3)] :=
  have h := C7_chunk_size_independence opened
    { data := [1, 2, 3], pos := 0, seekable := true, faults := [] } 3 1 4096 rfl
    (by decide) (by decide) (by decide) (by decide) (by decide)
  ⟨by decide, by decide, h.1, h.2.1, by decide, by decide⟩

/-- Claim C8. The process always ends with an exit status, and the status is 0 exactly when
the load ran to full completion (`Completed`); otherwise it is 1. In particular it is 1 when the
filename is missing, when the file cannot be opened, when the file does not fit, when `map()` or
the staging allocation throws, and when the loop is left through a read whose count differs
from the request. -/
theorem C8_exit_status (argv1 : Option String) (w : World) :
    (exitStatus (main argv1 w).1 = some 0 ↔ Completed argv1 w) ∧
    (¬ Completed argv1 w → exitStatus (main argv1 w).1 = some 1) ∧
    (argv1 = none → exitStatus (main argv1 w).1 = some 1) ∧
    (∀ filename, argv1 = some filename → sysOpen w filename = none →
      exitStatus (main argv1 w).1 = some 1) ∧
    (∀ filename s, argv1 = some filename → sysOpen w filename = some s →
      ((getFileSize { w with fd := some s }).1 > w.contigBuffer.size ∨
       w.contigBuffer.mapOk = false ∨ w.allocOk = false ∨
       (fillLoop FRAME_SIZE (getFileSize { w with fd := some s }).1
          { w with fd := some s }).1 ≠ Outcome.returned) →
      exitStatus (main argv1 w).1 = some 1) := by
  have main_cases : (exitStatus (main argv1 w).1 = some 0 ∧ Completed argv1 w) ∨
      (exitStatus (main argv1 w).1 = some 1 ∧ ¬ Completed argv1 w) := by
    cases argv1 with
    | none =>
      right
      exact ⟨rfl, fun ⟨_, _, h, _⟩ => by simp at h⟩
    | some filename =>
      rw [main_fst]
      cases hopen : sysOpen w filename with
      | none =>
        right
        have hex : (execute filename w).1 = Outcome.exited 1 := by
          simp [execute, hopen]
        rw [hex]
        refine ⟨rfl, ?_⟩
        rintro ⟨fn, s, h1, h2, -⟩
        simp only [Option.some.injEq] at h1
        rw [← h1, hopen] at h2
        simp at h2
      | some s =>
        rw [execute_fst hopen]
        have hcompl : Completed (some filename) w ↔
            (w.contigBuffer.mapOk = true ∧
             (getFileSize { w with fd := some s }).1 ≤ w.contigBuffer.size ∧
             w.allocOk = true ∧
             (fillLoop FRAME_SIZE (getFileSize { w with fd := some s }).1
               { w with fd := some s }).1 = Outcome.returned) := by
          constructor
          · rintro ⟨fn, s1, h1, h2, h3⟩
            simp only [Option.some.injEq] at h1
            rw [← h1, hopen] at h2
            simp only [Option.some.injEq] at h2
            rw [← h2] at h3
            exact h3
          · intro h
            exact ⟨filename, s, rfl, hopen, h⟩
        rw [hcompl]
        by_cases hmap : w.contigBuffer.mapOk = true
        · by_cases hfit : (getFileSize { w with fd := some s }).1 ≤ w.contigBuffer.size
          · by_cases halloc : w.allocOk = true
            · rw [if_pos hmap, if_neg (Nat.not_lt.mpr hfit), if_pos halloc]
              rcases fillLoop_fst _ { w with fd := some s } (getFileSize_lt _) with h | h
              · left
                rw [h]
                exact ⟨rfl, hmap, hfit, halloc, rfl⟩
              · right
                rw [h]
                exact ⟨rfl, fun hc => by simp at hc⟩
            · right
              rw [if_pos hmap, if_neg (Nat.not_lt.mpr hfit), if_neg halloc]
              exact ⟨rfl, fun hc => halloc hc.2.2.1⟩
          · right
            rw [if_pos hmap, if_pos (Nat.lt_of_not_le hfit)]
            exact ⟨rfl, fun hc => hfit hc.2.1⟩
        · right
          rw [if_neg hmap]
          exact ⟨rfl, fun hc => hmap hc.1⟩
  have helse : ¬ Completed argv1 w → exitStatus (main argv1 w).1 = some 1 := by
    intro hn
    rcases main_cases with ⟨-, h⟩ | ⟨h, -⟩
    · exact absurd h hn
    · exact h
  refine ⟨?_, helse, ?_, ?_, ?_⟩
  · constructor
    · intro h0
      rcases main_cases with ⟨-, h⟩ | ⟨h, -⟩
      · exact h
      · rw [h] at h0; simp at h0
    · intro hc
      rcases main_cases with ⟨h, -⟩ | ⟨-, h⟩
      · exact h
      · exact absurd hc h
  · intro h
    apply helse
    rintro ⟨_, _, h1, -⟩
    rw [h] at h1
    simp at h1
  · intro filename h hopen
    apply helse
    rintro ⟨fn, s, h1, h2, -⟩
    rw [h] at h1
    simp only [Option.some.injEq] at h1
    rw [← h1, hopen] at h2
    simp at h2
  · intro filename s h hopen hfail
    apply helse
    rintro ⟨fn, s1, h1, h2, h3, h4, h5, h6⟩
    rw [h] at h1
    simp only [Option.some.injEq] at h1
    rw [← h1, hopen] at h2
    simp only [Option.some.injEq] at h2
    rw [← h2] at h4 h6
    rcases hfail with hf | hf | hf | hf
    · omega
    · rw [hf] at h3; simp at h3
    · rw [hf] at h5; simp at h5
    · exact hf h6

/-- Witness for C8: one complete load and one run for each kind of failure. -/
theorem C8_exit_status_witness :
    exitStatus (main (some "data.bin") exactFit).1 = some 0 ∧
    exitStatus (main none exactFit).1 = some 1 ∧
    exitStatus (main (some "data.bin") noFile).1 = some 1 ∧
    exitStatus (main (some "data.bin") tooSmall).1 = some 1 ∧
    exitStatus (main (some "data.bin") { exactFit with allocOk := false }).1 = some 1 ∧
    exitStatus (main (some "data.bin")
      { exactFit with contigBuffer := { mapOk := false, size := 3, physAddr := 0 } }).1 = some 1 ∧
    exitStatus (main (some "data.bin") { exactFit with disk := fun _ => some faulty }).1 = some 1 :=
  ⟨by decide, (C8_exit_status none exactFit).2.2.1 rfl,
    (C8_exit_status (some "data.bin") noFile).2.2.2.1 "data.bin" rfl rfl,
    by decide, by decide, by decide, by decide⟩

/-- Claim C9. If the source cannot be opened, `execute` ends with `exit(1)` after the
diagnostic, for every capacity. If the source opens but its length cannot be determined (the
end-of-file seek of `getFileSize` returns -1), `execute` does not return normally: once the
region is mapped it ends with `exit(1)` at the size check. In both cases no transfer is
attempted: `fillBuffer` is not called, no read is issued, nothing is written to the region and
nothing is printed. The capacity is taken below `2 ^ 64 - 1`: a mapped region shares the 64-bit
address space with the program and its staging buffer, so it cannot have `2 ^ 64 - 1` bytes. -/
theorem C9_unavailable_source_no_transfer (w : World) (filename : String) :
    (sysOpen w filename = none →
      (execute filename w).1 = Outcome.exited 1 ∧
      (execute filename w).2.diag = w.diag ++ [Diag.cantOpen filename] ∧
      (execute filename w).2.entered = w.entered ∧
      (execute filename w).2.reads = w.reads ∧
      (execute filename w).2.writes = w.writes ∧
      (execute filename w).2.mem = w.mem ∧
      (execute filename w).2.shown = w.shown) ∧
    (∀ s, sysOpen w filename = some s →
      (lseek0 { w with fd := some s } Whence.SEEK_END).1 = -1 →
      w.contigBuffer.size < 2 ^ 64 - 1 →
      (execute filename w).1 ≠ Outcome.returned ∧
      (w.contigBuffer.mapOk = true →
        (execute filename w).1 = Outcome.exited 1 ∧
        (execute filename w).2.diag =
          w.diag ++ [Diag.wontFit (2 ^ 64 - 1) w.contigBuffer.size]) ∧
      (execute filename w).2.entered = w.entered ∧
      (execute filename w).2.reads = w.reads ∧
      (execute filename w).2.writes = w.writes ∧
      (execute filename w).2.mem = w.mem ∧
      (execute filename w).2.shown = w.shown) := by
  constructor
  · intro hopen
    simp [execute, hopen]
  · intro s hopen hseek hcap
    have hsz : (getFileSize { w with fd := some s }).1 = 2 ^ 64 - 1 := by
      simp only [getFileSize]
      rw [hseek]
      decide
    have hbig : (getFileSize { w with fd := some s }).1 > w.contigBuffer.size := by
      rw [hsz]; exact hcap
    rw [execute_opened hopen, if_pos hbig, hsz]
    cases hmap : w.contigBuffer.mapOk <;> simp

/-- Witness for C9: a missing file, and a FIFO with a region of 1024 bytes. -/
theorem C9_unavailable_source_no_transfer_witness :
    ((execute "data.bin" noFile).1 = Outcome.exited 1 ∧
      (execute "data.bin" noFile).2.diag = [Diag.cantOpen "data.bin"] ∧
      (execute "data.bin" noFile).2.entered = false ∧
      (execute "data.bin" noFile).2.reads = []) ∧
    ((execute "fifo" pipeSmall).1 = Outcome.exited 1 ∧
      (execute "fifo" pipeSmall).2.diag = [Diag.wontFit (2 ^ 64 - 1) 1024] ∧
      (execute "fifo" pipeSmall).2.entered = false ∧
      (execute "fifo" pipeSmall).2.reads = []) :=
  have h1 := (C9_unavailable_source_no_transfer noFile "data.bin").1 rfl
  have h2 := (C9_unavailable_source_no_transfer pipeSmall "fifo").2
    { data := [], pos := 0, seekable := false, faults := [] } rfl (by decide) (by decide)
  ⟨⟨h1.1, h1.2.1, h1.2.2.1, h1.2.2.2.1⟩,
    ⟨(h2.2.1 rfl).1, (h2.2.1 rfl).2, h2.2.2.1, h2.2.2.2.1⟩⟩

/-- The size check is the only thing between a failed length query and `fillBuffer`: the -1 of
the seek becomes `fileSize = 2 ^ 64 - 1`, which no capacity below that value admits. In the
model a region of `2 ^ 64 - 1` bytes would admit it; no process can hold such a region, since
region and staging buffer together would exceed the 64-bit address space. -/
theorem failed_length_query_at_full_capacity :
    (lseek0 { pipeLoad with fd := sysOpen pipeLoad "fifo" } Whence.SEEK_END).1 = -1 ∧
    (getFileSize { pipeLoad with fd := sysOpen pipeLoad "fifo" }).1 = 2 ^ 64 - 1 ∧
    (execute "fifo" pipeLoad).2.entered = true ∧
    (execute "fifo" pipeLoad).2.reads = [(FRAME_SIZE, 0)] ∧
    (execute "fifo" pipeLoad).2.diag = [Diag.readError] := by
  decide

/-- Claim C10. `execute` calls `getFileSize` on the descriptor it has just opened. After the
call the world is as before it, so the read position is the one the descriptor had; when the
end-of-file seek succeeds the value returned is the length of the file in bytes. On rejection
by the size check the descriptor is still at that position, and on acceptance `fillBuffer`
starts from it. -/
theorem C10_length_query_keeps_position (w : World) (filename : String) (s : Source)
    (hopen : sysOpen w filename = some s) :
    (getFileSize { w with fd := some s }).2 = { w with fd := some s } ∧
    (∃ s1, (getFileSize { w with fd := some s }).2.fd = some s1 ∧ s1.pos = s.pos) ∧
    (s.seekable = true → s.data.length < 2 ^ 63 →
      (getFileSize { w with fd := some s }).1 = s.data.length) ∧
    (w.contigBuffer.mapOk = true →
      (getFileSize { w with fd := some s }).1 > w.contigBuffer.size →
      (execute filename w).1 = Outcome.exited 1 ∧ (execute filename w).2.fd = some s) ∧
    (w.contigBuffer.mapOk = true →
      (getFileSize { w with fd := some s }).1 ≤ w.contigBuffer.size →
      execute filename w =
        match fillBuffer (getFileSize { w with fd := some s }).1 { w with fd := some s } with
        | (Outcome.returned, w2) => (Outcome.returned, { w2 with fd := none })
        | (o, w2) => (o, w2)) := by
  have hsz := getFileSize_opened w s (sysOpen_pos hopen)
  refine ⟨by rw [hsz], ⟨s, by rw [hsz], rfl⟩, ?_, ?_, ?_⟩
  · intro hseek hlen
    rw [hsz]
    simp only [hseek, hlen, and_self, if_true]
    exact toSizeT_natCast _ (by omega)
  · intro hmap hbig
    rw [execute_opened hopen, if_pos hmap, if_pos hbig]
    exact ⟨rfl, rfl⟩
  · intro hmap hfit
    rw [execute_opened hopen, if_pos hmap, if_neg (Nat.not_lt.mpr hfit)]

/-- Witness for C10: a file of three bytes and a region of two. -/
theorem C10_length_query_keeps_position_witness :
    (getFileSize { tooSmall with fd := sysOpen tooSmall "data.bin" }).1 = 3 ∧
    (execute "data.bin" tooSmall).2.fd.map Source.pos = some 0 ∧
    (execute "data.bin" tooSmall).1 = Outcome.exited 1 :=
  have h := C10_length_query_keeps_position tooSmall "data.bin"
    { data := [1, 2, 3], pos := 0, seekable := true, faults := [] } rfl
  ⟨h.2.2.1 rfl (by decide), by rw [(h.2.2.2.1 rfl (by decide)).2]; rfl,
    (h.2.2.2.1 rfl (by decide)).1⟩

/-! ## Further invariants of the loop -/

/-- A run of `k + m` iterations passes through the state after `k` iterations. -/
theorem iterations_split (frame F : Nat) :
    ∀ (k m : Nat) (st0 st : Loop), iterations frame F (k + m) st0 = some st →
      ∃ st1, iterations frame F k st0 = some st1 ∧ iterations frame F m st1 = some st := by
  intro k
  induction k with
  | zero =>
    intro m st0 st h
    rw [Nat.zero_add] at h
    exact ⟨st0, rfl, h⟩
  | succ k ih =>
    intro m st0 st h
    have e : k + 1 + m = (k + m) + 1 := by omega
    rw [e, iterations] at h
    cases h1 : iterate1 frame F st0 with
    | none => simp [h1] at h
    | some sta =>
      rw [h1] at h
      simp only [Option.some_bind] at h
      obtain ⟨st1, h2, h3⟩ := ih m sta st h
      refine ⟨st1, ?_, h3⟩
      rw [iterations, h1]
      simpa using h2

/-- The state after fewer iterations than a run is known to reach. -/
theorem iterations_earlier (frame F : Nat) {k j : Nat} {st0 st : Loop} (hj : j ≤ k)
    (h : iterations frame F k st0 = some st) : ∃ st1, iterations frame F j st0 = some st1 := by
  have e : k = j + (k - j) := by omega
  rw [e] at h
  obtain ⟨st1, h1, -⟩ := iterations_split frame F j (k - j) st0 st h
  exact ⟨st1, h1⟩

/-- The bytes still to load never exceed what the loop started with. -/
theorem remaining_le_of_iterations (frame F : Nat) :
    ∀ (k : Nat) (st0 st : Loop), iterations frame F k st0 = some st →
      st.bytesRemaining ≤ st0.bytesRemaining := by
  intro k
  induction k with
  | zero =>
    intro st0 st h
    simp only [iterations, Option.some.injEq] at h
    rw [h]
  | succ k ih =>
    intro st0 st h
    rw [iterations_succ_last] at h
    cases hk : iterations frame F k st0 with
    | none => simp [hk] at h
    | some st1 =>
      rw [hk] at h
      simp only [Option.some_bind] at h
      obtain ⟨-, hb⟩ := iterate1_some h
      obtain ⟨-, -, hr, -⟩ := loopBody_next hb
      have := ih st0 st1 hk
      omega

/-- The bytes of the region at and beyond the write pointer are those the loop started with. -/
theorem untouched_of_iterations (frame F : Nat) :
    ∀ (k : Nat) (st0 st : Loop), iterations frame F k st0 = some st →
      st0.ptr ≤ st.ptr ∧ ∀ a, st.ptr ≤ a → st.w.mem a = st0.w.mem a := by
  intro k
  induction k with
  | zero =>
    intro st0 st h
    simp only [iterations, Option.some.injEq] at h
    rw [h]
    exact ⟨le_refl _, fun _ _ => rfl⟩
  | succ k ih =>
    intro st0 st h
    rw [iterations_succ_last] at h
    cases hk : iterations frame F k st0 with
    | none => simp [hk] at h
    | some st1 =>
      rw [hk] at h
      simp only [Option.some_bind] at h
      obtain ⟨-, hb⟩ := iterate1_some h
      obtain ⟨-, -, -, hp, -, hw⟩ := loopBody_next hb
      obtain ⟨h1, h2⟩ := ih st0 st1 hk
      refine ⟨by omega, ?_⟩
      intro a ha
      rw [hw]
      simp only [memcpy]
      rw [if_neg (by omega)]
      exact h2 a (by omega)

/-- What `fillBufferWith` leaves in the world, in terms of the loop: the records and the region
are those of the loop when the staging buffer was allocated, and untouched otherwise. -/
theorem fillBufferWith_fields (frame F : Nat) (w : World) :
    (w.allocOk = true →
      (fillBufferWith frame F w).2.mem = (fillLoop frame F w).2.w.mem ∧
      (fillBufferWith frame F w).2.writes = (fillLoop frame F w).2.w.writes ∧
      (fillBufferWith frame F w).2.reads = (fillLoop frame F w).2.w.reads ∧
      (fillBufferWith frame F w).2.fd = (fillLoop frame F w).2.w.fd) ∧
    (w.allocOk = false →
      (fillBufferWith frame F w).2.mem = w.mem ∧
      (fillBufferWith frame F w).2.writes = w.writes ∧
      (fillBufferWith frame F w).2.reads = w.reads ∧
      (fillBufferWith frame F w).2.fd = w.fd) := by
  constructor
  · intro h
    rw [fillBufferWith_world _ _ _ h]
    split <;> exact ⟨rfl, rfl, rfl, rfl⟩
  · intro h
    simp [fillBufferWith, h]

/-- A loop entered with nothing left to load returns at once, whatever the fuel. -/
theorem transferLoop_done (frame F fuel : Nat) (st : Loop) (h : st.bytesRemaining = 0) :
    transferLoop frame F fuel st = (Outcome.returned, st) := by
  cases fuel <;> simp [transferLoop, h]

/-- With a chunk size of at least one byte every iteration that starts loads something. -/
theorem loadedAt_lt_succ (frame F k : Nat) (hfr : 1 ≤ frame) (h : loadedAt frame F k < F) :
    loadedAt frame F k < loadedAt frame F (k + 1) := by
  unfold loadedAt at *
  rw [Nat.succ_mul]
  generalize k * frame = x at *
  omega

/-- The number of iterations of a complete run: the least `k` with `k * frame >= fileSize`. -/
theorem iterations_count (frame F k : Nat) (hfr : 1 ≤ frame) (hend : loadedAt frame F k = F)
    (hstart : ∀ j, j < k → loadedAt frame F j < F) : k = (F + frame - 1) / frame := by
  have h1 : F ≤ k * frame := by
    unfold loadedAt at hend
    omega
  have h2 : k * frame ≤ F + frame - 1 := by
    cases k with
    | zero => simp
    | succ n =>
      have := hstart n (Nat.lt_succ_self n)
      unfold loadedAt at this
      rw [Nat.succ_mul]
      omega
  symm
  apply Nat.div_eq_of_lt_le
  · rw [Nat.mul_comm] at h2
    rw [Nat.mul_comm]; exact h2
  · rw [Nat.succ_mul]
    omega

/-- The failing exit of the loop of `fillBuffer`: after `k` complete iterations a read whose
count differs from the request ends the loop with `exit(1)`, in the state of that boundary but
for the read itself and its diagnostic. -/
theorem fillLoop_of_short {frame F : Nat} {w : World} {k : Nat} {st : Loop} (hF : F < 2 ^ 64)
    (hfr : 1 ≤ frame)
    (hreach : iterations frame F k (fillInit F { w with entered := true }) = some st)
    (hrem : st.bytesRemaining ≠ 0)
    (hshort : (sysRead st.w st.localBuffer (blockSizeOf frame st.bytesRemaining)).1 ≠
      blockSizeOf frame st.bytesRemaining) :
    (fillLoop frame F w).1 = Outcome.exited 1 ∧
    (fillLoop frame F w).2.w.mem = st.w.mem ∧
    (fillLoop frame F w).2.w.writes = st.w.writes ∧
    (fillLoop frame F w).2.w.reads = st.w.reads ++
      [(blockSizeOf frame st.bytesRemaining,
        (sysRead st.w st.localBuffer (blockSizeOf frame st.bytesRemaining)).1)] ∧
    (fillLoop frame F w).2.bytesLoaded = st.bytesLoaded := by
  have hb := loopBody_of_short (F := F) hshort
  have ha := acct_of_iterations hF k st hreach
  have hk : k < F := by
    have h1 := ha.remaining
    have h2 : loadedAt frame F k < F := by omega
    unfold loadedAt at h2
    have h3 : k * 1 ≤ k * frame := Nat.mul_le_mul_left _ hfr
    omega
  have h1 := transferLoop_of_iterations frame F k _ st (F - k) hreach
  have h2 : k + (F - k) = F := by omega
  have h3 : F - k = (F - k - 1) + 1 := by omega
  rw [h2, h3, transferLoop, if_neg hrem, hb] at h1
  obtain ⟨f1, f2, f3, -⟩ :=
    sysRead_fields st.w st.localBuffer (blockSizeOf frame st.bytesRemaining)
  unfold fillLoop
  rw [h1]
  exact ⟨rfl, f2, f3, f1, rfl⟩

/-! ## Two runs side by side -/

/-- What `read` returns, and where it leaves the file, depends on the open file alone; after a
read that returned the count requested, the staging buffers agree on the bytes read. -/
theorem sysRead_agree (w1 w2 : World) (b1 b2 : Mem) (n : Nat) (hfd : w1.fd = w2.fd) :
    (sysRead w1 b1 n).1 = (sysRead w2 b2 n).1 ∧
    (sysRead w1 b1 n).2.2.fd = (sysRead w2 b2 n).2.2.fd ∧
    ((sysRead w1 b1 n).1 = n → n < 2 ^ 64 - 1 →
      ∀ i, i < n → (sysRead w1 b1 n).2.1 i = (sysRead w2 b2 n).2.1 i) := by
  unfold sysRead
  rw [← hfd]
  cases h : w1.fd with
  | none =>
    refine ⟨rfl, by simp [h], ?_⟩
    intro hrc hn
    simp only [toSizeT_neg_one] at hrc
    omega
  | some s =>
    simp only
    rcases hr : s.read n with ⟨o, s1⟩
    cases o with
    | none =>
      refine ⟨rfl, rfl, ?_⟩
      intro hrc hn
      simp only [toSizeT_neg_one] at hrc
      omega
    | some bs =>
      refine ⟨rfl, rfl, ?_⟩
      intro hrc _ i hi
      simp only at hrc ⊢
      rw [List.getD_eq_getElem _ _ (by omega), List.getD_eq_getElem _ _ (by omega)]

/-- A `memcpy` depends on the source buffer only within the length copied. -/
theorem memcpy_congr (mem : Mem) (p : Nat) (b1 b2 : Mem) (n : Nat)
    (h : ∀ i, i < n → b1 i = b2 i) : memcpy mem p b1 n = memcpy mem p b2 n := by
  funext a
  unfold memcpy
  split
  · exact h _ (by omega)
  · rfl

/-- From agreeing states the loop body takes the same way out and ends in agreeing states. -/
theorem loopBody_agree {frame F : Nat} {a b : Loop} (hfr : frame < 2 ^ 64 - 1)
    (hab : Agree a b) :
    (∃ a1 b1, loopBody frame F a = Step.next a1 ∧ loopBody frame F b = Step.next b1 ∧
      Agree a1 b1) ∨
    (∃ a1 b1, loopBody frame F a = Step.exit1 a1 ∧ loopBody frame F b = Step.exit1 b1 ∧
      Agree a1 b1) := by
  obtain ⟨hfd, hmem, hptr, hl, hr⟩ := hab
  have hblk : blockSizeOf frame a.bytesRemaining < 2 ^ 64 - 1 := by
    unfold blockSizeOf; split <;> omega
  obtain ⟨r1, r2, r3⟩ :=
    sysRead_agree a.w b.w a.localBuffer b.localBuffer (blockSizeOf frame a.bytesRemaining) hfd
  obtain ⟨-, fa, -⟩ := sysRead_fields a.w a.localBuffer (blockSizeOf frame a.bytesRemaining)
  obtain ⟨-, fb, -⟩ := sysRead_fields b.w b.localBuffer (blockSizeOf frame a.bytesRemaining)
  cases ha : loopBody frame F a with
  | next a1 =>
    obtain ⟨hrc, hl1, hr1, hp1, hb1, hw1⟩ := loopBody_next ha
    cases hb : loopBody frame F b with
    | next b1 =>
      left
      obtain ⟨-, hl2, hr2, hp2, hb2, hw2⟩ := loopBody_next hb
      refine ⟨a1, b1, rfl, rfl, ?_, ?_, ?_, ?_, ?_⟩
      · rw [hw1, hw2, ← hr]; exact r2
      · rw [hw1, hw2, ← hr, ← hptr, ← hmem]
        exact memcpy_congr _ _ _ _ _ (r3 hrc hblk)
      · rw [hp1, hp2, hptr, hr]
      · rw [hl1, hl2, hl, hr]
      · rw [hr1, hr2, hr]
    | exit1 b1 =>
      exfalso
      obtain ⟨hne, -⟩ := loopBody_exit1 hb
      rw [← hr, ← r1] at hne
      exact hne hrc
  | exit1 a1 =>
    obtain ⟨hne, hst1⟩ := loopBody_exit1 ha
    cases hb : loopBody frame F b with
    | next b1 =>
      exfalso
      obtain ⟨hrc, -⟩ := loopBody_next hb
      rw [← hr, ← r1] at hrc
      exact hne hrc
    | exit1 b1 =>
      right
      obtain ⟨-, hst2⟩ := loopBody_exit1 hb
      refine ⟨a1, b1, rfl, rfl, ?_, ?_, ?_, ?_, ?_⟩
      · rw [hst1, hst2, ← hr]; exact r2
      · rw [hst1, hst2, ← hr]
        simp only
        rw [fa, fb, hmem]
      · rw [hst1, hst2]; exact hptr
      · rw [hst1, hst2]; exact hl
      · rw [hst1, hst2]; exact hr

/-- From agreeing states the loop is left the same way, in agreeing states. -/
theorem transferLoop_agree {frame F : Nat} (hfr : frame < 2 ^ 64 - 1) :
    ∀ (fuel : Nat) (a b : Loop), Agree a b →
      (transferLoop frame F fuel a).1 = (transferLoop frame F fuel b).1 ∧
      Agree (transferLoop frame F fuel a).2 (transferLoop frame F fuel b).2 := by
  intro fuel
  induction fuel with
  | zero =>
    intro a b hab
    have hr := hab.2.2.2.2
    by_cases h0 : a.bytesRemaining = 0
    · rw [transferLoop_done _ _ _ _ h0, transferLoop_done _ _ _ _ (hr ▸ h0)]
      exact ⟨rfl, hab⟩
    · have h0b : b.bytesRemaining ≠ 0 := hr ▸ h0
      simp only [transferLoop, h0, h0b, if_false]
      exact ⟨trivial, hab⟩
  | succ fuel ih =>
    intro a b hab
    have hr := hab.2.2.2.2
    by_cases h0 : a.bytesRemaining = 0
    · rw [transferLoop_done _ _ _ _ h0, transferLoop_done _ _ _ _ (hr ▸ h0)]
      exact ⟨rfl, hab⟩
    · have h0b : b.bytesRemaining ≠ 0 := hr ▸ h0
      rcases loopBody_agree (F := F) hfr hab with ⟨a1, b1, ha, hb, h1⟩ | ⟨a1, b1, ha, hb, h1⟩
      · rw [transferLoop, if_neg h0, ha, transferLoop, if_neg h0b, hb]
        exact ih a1 b1 h1
      · rw [transferLoop, if_neg h0, ha, transferLoop, if_neg h0b, hb]
        exact ⟨rfl, h1⟩

/-- `fillBuffer` leaves the flag of the allocator as it was. -/
theorem fillBufferWith_allocOk (frame F : Nat) (w : World) :
    (fillBufferWith frame F w).2.allocOk = w.allocOk := by
  have inv : ∀ (k : Nat) (st0 st : Loop), iterations frame F k st0 = some st →
      st.w.allocOk = st0.w.allocOk := by
    intro k
    induction k with
    | zero =>
      intro st0 st h
      simp only [iterations, Option.some.injEq] at h
      rw [h]
    | succ k ih =>
      intro st0 st h
      rw [iterations_succ_last] at h
      cases hk : iterations frame F k st0 with
      | none => simp [hk] at h
      | some st1 =>
        rw [hk] at h
        simp only [Option.some_bind] at h
        obtain ⟨-, hb⟩ := iterate1_some h
        obtain ⟨-, -, -, -, -, hw⟩ := loopBody_next hb
        rw [hw]
        simp only
        rw [(sysRead_fields _ _ _).2.2.2.2.2.2.1]
        exact ih st0 st1 hk
  cases halloc : w.allocOk with
  | false => simp [fillBufferWith, halloc]
  | true =>
    rw [fillBufferWith_world _ _ _ halloc]
    obtain ⟨k, st, -, hit, hc⟩ := fillLoop_run frame F w
    have h1 := inv k _ st hit
    have h2 : (fillInit F { w with entered := true }).w.allocOk = w.allocOk := rfl
    rw [h2, halloc] at h1
    rcases hc with ⟨-, h⟩ | ⟨-, st1, hb, h⟩ | ⟨-, -, h⟩
    · rw [h]; simpa using h1
    · obtain ⟨-, hst1⟩ := loopBody_exit1 hb
      rw [h, hst1]
      simp only [reduceCtorEq, if_false]
      rw [(sysRead_fields _ _ _).2.2.2.2.2.2.1]
      exact h1
    · rw [h]; simpa using h1

/-- Two calls of `fillBuffer` in worlds that agree on the open file, the bytes of the region and
the allocator end the same way, with the same bytes in the region, the same `bytesLoaded` and
the file left in the same state. -/
theorem fillBuffer_agree (F : Nat) (w1 w2 : World) (hfd : w1.fd = w2.fd) (hmem : w1.mem = w2.mem)
    (halloc : w1.allocOk = w2.allocOk) :
    (fillBuffer F w1).1 = (fillBuffer F w2).1 ∧
    (fillBuffer F w1).2.mem = (fillBuffer F w2).2.mem ∧
    (fillLoop FRAME_SIZE F w1).2.bytesLoaded = (fillLoop FRAME_SIZE F w2).2.bytesLoaded ∧
    (fillBuffer F w1).2.fd = (fillBuffer F w2).2.fd := by
  have h0 : Agree (fillInit F { w1 with entered := true }) (fillInit F { w2 with entered := true }) :=
    ⟨hfd, hmem, rfl, rfl, rfl⟩
  obtain ⟨ho, hfd1, hmem1, -, hl1, -⟩ :=
    @transferLoop_agree FRAME_SIZE F (by decide) F _ _ h0
  have ho1 : (fillLoop FRAME_SIZE F w1).1 = (fillLoop FRAME_SIZE F w2).1 := ho
  have hl2 : (fillLoop FRAME_SIZE F w1).2.bytesLoaded = (fillLoop FRAME_SIZE F w2).2.bytesLoaded :=
    hl1
  have hm2 : (fillLoop FRAME_SIZE F w1).2.w.mem = (fillLoop FRAME_SIZE F w2).2.w.mem := hmem1
  have hf2 : (fillLoop FRAME_SIZE F w1).2.w.fd = (fillLoop FRAME_SIZE F w2).2.w.fd := hfd1
  unfold fillBuffer
  rw [fillBufferWith_fst, fillBufferWith_fst, ← halloc, ho1]
  refine ⟨rfl, ?_, hl2, ?_⟩
  · cases ha : w1.allocOk with
    | false =>
      rw [((fillBufferWith_fields _ _ _).2 ha).1,
        ((fillBufferWith_fields _ _ _).2 (halloc ▸ ha)).1, hmem]
    | true =>
      rw [((fillBufferWith_fields _ _ _).1 ha).1,
        ((fillBufferWith_fields _ _ _).1 (halloc ▸ ha)).1, hm2]
  · cases ha : w1.allocOk with
    | false =>
      rw [((fillBufferWith_fields _ _ _).2 ha).2.2.2,
        ((fillBufferWith_fields _ _ _).2 (halloc ▸ ha)).2.2.2, hfd]
    | true =>
      rw [((fillBufferWith_fields _ _ _).1 ha).2.2.2,
        ((fillBufferWith_fields _ _ _).1 (halloc ▸ ha)).2.2.2, hf2]

/-- Two runs of `execute` in worlds that agree on the file found under the name, on the
reserved region (whether it maps, its size, its bytes) and on the allocator end the same way
with the same bytes in the region. -/
theorem execute_agree (filename : String) (w1 w2 : World)
    (hdisk : w1.disk filename = w2.disk filename)
    (hmap : w1.contigBuffer.mapOk = w2.contigBuffer.mapOk)
    (hsize : w1.contigBuffer.size = w2.contigBuffer.size) (hmem : w1.mem = w2.mem)
    (halloc : w1.allocOk = w2.allocOk) :
    (execute filename w1).1 = (execute filename w2).1 ∧
    (execute filename w1).2.mem = (execute filename w2).2.mem := by
  have hopen : sysOpen w1 filename = sysOpen w2 filename := by
    unfold sysOpen; rw [hdisk]
  cases h1 : sysOpen w1 filename with
  | none =>
    have h2 : sysOpen w2 filename = none := by rw [← hopen, h1]
    simp [execute, h1, h2, hmem]
  | some s =>
    have h2 : sysOpen w2 filename = some s := by rw [← hopen, h1]
    have g1 := getFileSize_opened w1 s (sysOpen_pos h1)
    have g2 := getFileSize_opened w2 s (sysOpen_pos h2)
    have hsz : (getFileSize { w1 with fd := some s }).1 = (getFileSize { w2 with fd := some s }).1 := by
      rw [g1, g2]
    by_cases hm : w1.contigBuffer.mapOk = true
    · have hm2 : w2.contigBuffer.mapOk = true := by rw [← hmap]; exact hm
      by_cases hfit : (getFileSize { w1 with fd := some s }).1 ≤ w1.contigBuffer.size
      · have hfit2 : (getFileSize { w2 with fd := some s }).1 ≤ w2.contigBuffer.size := by
          rw [← hsz, ← hsize]; exact hfit
        obtain ⟨a1, a2, -⟩ := execute_accepted h1 hm hfit
        obtain ⟨b1, b2, -⟩ := execute_accepted h2 hm2 hfit2
        obtain ⟨c1, c2, -⟩ := fillBuffer_agree (getFileSize { w1 with fd := some s }).1
          { w1 with fd := some s } { w2 with fd := some s } rfl hmem halloc
        rw [a1, a2, b1, b2, ← hsz]
        exact ⟨c1, c2⟩
      · have hfit2 : ¬ (getFileSize { w2 with fd := some s }).1 ≤ w2.contigBuffer.size := by
          rw [← hsz, ← hsize]; exact hfit
        rw [execute_opened h1, execute_opened h2, if_pos hm, if_pos hm2,
          if_pos (Nat.lt_of_not_le hfit), if_pos (Nat.lt_of_not_le hfit2)]
        exact ⟨rfl, hmem⟩
    · have hm2 : ¬ w2.contigBuffer.mapOk = true := by rw [← hmap]; exact hm
      rw [execute_opened h1, execute_opened h2, if_neg hm, if_neg hm2]
      exact ⟨rfl, hmem⟩

/-- The value printed last after `k + 1` complete iterations is the one computed from the
`bytesLoaded` of that boundary. -/
theorem acct_last_shown {frame F : Nat} {w : World} {k : Nat} {st : Loop}
    (ha : Acct frame F w (k + 1) st) :
    st.w.shown.getLast? = some (pctOf st.bytesLoaded F) := by
  rw [ha.shown, ha.loaded, List.range_succ, List.map_append, List.map_singleton,
    ← List.cons_append, ← List.append_assoc]
  exact List.getLast?_concat _

/-- A source that delivers whatever is asked for and holds `fileSize` bytes lets the loop reach
every iteration boundary up to its last. -/
theorem iterations_no_faults {frame F : Nat} {w : World} {s : Source} (hF : F < 2 ^ 64)
    (hfr : 1 ≤ frame) (hfr2 : frame < 2 ^ 64 - 1) (hfd : w.fd = some s) (hf : s.faults = [])
    (hn : F ≤ s.data.length - s.pos) (k : Nat) (hk : loadedAt frame F k < F) :
    ∃ st, iterations frame F (k + 1) (fillInit F { w with entered := true }) = some st := by
  have hret := fillLoop_no_faults hF hfr hfr2 hfd hf hn
  obtain ⟨kf, stf, hit, ha, -, -, -, -, -, -, hr⟩ := fillLoop_last frame F w hF
  obtain ⟨-, h0⟩ := hr hret
  have hle := loadedAt_le frame F kf
  have hend : loadedAt frame F kf = F := by have := ha.remaining; omega
  have hkf : k + 1 ≤ kf := by
    by_contra hcon
    have := loadedAt_mono frame F (show kf ≤ k by omega)
    omega
  exact iterations_earlier frame F hkf hit

/-- The load of `hugeFile` in `hugeWorld` is accepted and `fillBuffer` is called with the file
open at offset 0 and `fileSize = 2 ^ 58`. -/
theorem hugeWorld_accepted :
    ∃ s, sysOpen hugeWorld "huge.bin" = some s ∧ s.faults = [] ∧
      2 ^ 58 ≤ s.data.length - s.pos ∧
      (execute "huge.bin" hugeWorld).1 = (fillBuffer (2 ^ 58) { hugeWorld with fd := some s }).1 ∧
      (execute "huge.bin" hugeWorld).2.shown =
        (fillBuffer (2 ^ 58) { hugeWorld with fd := some s }).2.shown := by
  obtain ⟨s, hopen, hsd, hsp, hss, hsf⟩ : ∃ s, sysOpen hugeWorld "huge.bin" = some s ∧
      s.data = hugeFile.data ∧ s.pos = 0 ∧ s.seekable = true ∧ s.faults = [] :=
    ⟨_, rfl, rfl, rfl, rfl, rfl⟩
  have hsl : s.data.length = 2 ^ 58 := by rw [hsd]; exact hugeFile_length
  have hsz := getFileSize_opened hugeWorld s hsp
  rw [hss, hsl] at hsz
  simp only [true_and] at hsz
  rw [if_pos (by norm_num), toSizeT_natCast _ (by norm_num)] at hsz
  have hacc := execute_accepted hopen rfl (by rw [hsz]; exact le_refl _)
  rw [hsz] at hacc
  simp only at hacc
  exact ⟨s, hopen, hsf, by rw [hsl, hsp]; norm_num, hacc.1, hacc.2.2.1⟩

/-! ## The claims, continued -/

/-- Claim C11. The load is deterministic. Two calls of `fillBuffer(fileSize)` in worlds with
the same open file (same bytes, offset and read results), the same bytes in the region and the
same answer of the allocator end in the same outcome, with the same bytes in the region, the same
`bytesLoaded` and the file left in the same state, whatever else differs between the worlds: the
garbage in the fresh staging buffer, the records of earlier reads, writes, output and
diagnostics, the physical address. In particular a second call made in the world the first one
left, with the region and the file reset, repeats the result of the first. -/
theorem C11_load_is_deterministic (F : Nat) (w1 w2 : World) (hfd : w1.fd = w2.fd)
    (hmem : w1.mem = w2.mem) (halloc : w1.allocOk = w2.allocOk) :
    (fillBuffer F w1).1 = (fillBuffer F w2).1 ∧
    (fillBuffer F w1).2.mem = (fillBuffer F w2).2.mem ∧
    (fillLoop FRAME_SIZE F w1).2.bytesLoaded = (fillLoop FRAME_SIZE F w2).2.bytesLoaded ∧
    (fillBuffer F w1).2.fd = (fillBuffer F w2).2.fd ∧
    (fillBuffer F { (fillBuffer F w1).2 with mem := w1.mem, fd := w1.fd }).1 =
      (fillBuffer F w1).1 ∧
    (fillBuffer F { (fillBuffer F w1).2 with mem := w1.mem, fd := w1.fd }).2.mem =
      (fillBuffer F w1).2.mem := by
  obtain ⟨h1, h2, h3, h4⟩ := fillBuffer_agree F w1 w2 hfd hmem halloc
  obtain ⟨g1, g2, -⟩ := fillBuffer_agree F
    { (fillBuffer F w1).2 with mem := w1.mem, fd := w1.fd } w1 rfl rfl
    (fillBufferWith_allocOk FRAME_SIZE F w1)
  exact ⟨h1, h2, h3, h4, g1, g2⟩

/-- Witness for C11: a fresh world and one with other heap garbage and old records. -/
theorem C11_load_is_deterministic_witness :
    (fillBuffer 3 opened).1 = (fillBuffer 3 reused).1 ∧
    (fillBuffer 3 opened).2.mem = (fillBuffer 3 reused).2.mem ∧
    (fillBuffer 3 opened).2.reads ≠ (fillBuffer 3 reused).2.reads ∧
    bytesOf (fillBuffer 3 reused).2.mem 3 = [1, 2, 3] :=
  have h := C11_load_is_deterministic 3 opened reused rfl rfl rfl
  ⟨h.1, h.2.1, by decide, by decide⟩

/-- Claim C12. At every iteration boundary of the loop of `fillBuffer(fileSize)`, before the
first iteration (`k = 0`), after each complete iteration and when the loop is left (by its
condition or by `exit(1)`), `bytesLoaded + bytesRemaining == fileSize`; from one boundary to the
next `bytesLoaded` does not decrease and `bytesRemaining` does not increase. -/
theorem C12_cursor_invariant (frame F : Nat) (w : World) (hF : F < 2 ^ 64) :
    (∀ k st, iterations frame F k (fillInit F { w with entered := true }) = some st →
      st.bytesLoaded + st.bytesRemaining = F) ∧
    (∀ k st st1, iterations frame F k (fillInit F { w with entered := true }) = some st →
      iterate1 frame F st = some st1 →
      st.bytesLoaded ≤ st1.bytesLoaded ∧ st1.bytesRemaining ≤ st.bytesRemaining) ∧
    (fillLoop frame F w).2.bytesLoaded + (fillLoop frame F w).2.bytesRemaining = F := by
  have inv : ∀ k st, iterations frame F k (fillInit F { w with entered := true }) = some st →
      st.bytesLoaded + st.bytesRemaining = F := by
    intro k st h
    have ha := acct_of_iterations hF k st h
    have := loadedAt_le frame F k
    rw [ha.loaded, ha.remaining]
    omega
  refine ⟨inv, ?_, ?_⟩
  · intro k st st1 h h1
    have ha := acct_of_iterations hF k st h
    have h2 : iterations frame F (k + 1) (fillInit F { w with entered := true }) = some st1 := by
      rw [iterations_succ_last, h]
      simpa using h1
    have ha1 := acct_of_iterations hF (k + 1) st1 h2
    have hm := loadedAt_mono frame F (Nat.le_add_right k 1)
    rw [ha.loaded, ha.remaining, ha1.loaded, ha1.remaining]
    exact ⟨hm, by omega⟩
  · obtain ⟨k, st, hit, -, -, -, -, hl, hr, -⟩ := fillLoop_last frame F w hF
    rw [hl, hr]
    exact inv k st hit

/-- Witness for C12: the counters of a load of three bytes in chunks of two, and of a load that
fails on its second read. -/
theorem C12_cursor_invariant_witness :
    (fillLoop 2 3 opened).2.bytesLoaded + (fillLoop 2 3 opened).2.bytesRemaining = 3 ∧
    (fillLoop 2 5 truncated).2.bytesLoaded = 2 ∧ (fillLoop 2 5 truncated).2.bytesRemaining = 3 :=
  ⟨(C12_cursor_invariant 2 3 opened (by decide)).2.2, by decide, by decide⟩

/-- Claim C13. In every iteration of the loop of `fillBuffer(fileSize)` the write pointer
advances by exactly `blockSize`, the length of the `memcpy` of that iteration, so at every
iteration boundary the pointer stands `bytesLoaded` bytes past the base and never more than
`fileSize` bytes past it. Every `memcpy` into the region ends at or before offset `fileSize`, so
under `fileSize <= capacity` every byte written lies at an offset below the capacity. -/
theorem C13_write_pointer_in_bounds (frame F : Nat) (w : World) (hF : F < 2 ^ 64) :
    (∀ k st, iterations frame F k (fillInit F { w with entered := true }) = some st →
      st.ptr = st.bytesLoaded ∧ st.ptr ≤ F) ∧
    (∀ k st st1, iterations frame F k (fillInit F { w with entered := true }) = some st →
      iterate1 frame F st = some st1 →
      st1.ptr = st.ptr + blockSizeOf frame st.bytesRemaining ∧
      st1.w.writes = st.w.writes ++ [(st.ptr, blockSizeOf frame st.bytesRemaining)]) ∧
    (∀ p ∈ (fillBufferWith frame F w).2.writes.drop w.writes.length, p.1 + p.2 ≤ F) ∧
    (∀ capacity, F ≤ capacity →
      ∀ p ∈ (fillBufferWith frame F w).2.writes.drop w.writes.length,
        ∀ a, p.1 ≤ a → a < p.1 + p.2 → a < capacity) := by
  have hwr : ∀ p ∈ (fillBufferWith frame F w).2.writes.drop w.writes.length, p.1 + p.2 ≤ F := by
    intro p hp
    cases halloc : w.allocOk with
    | false =>
      rw [((fillBufferWith_fields frame F w).2 halloc).2.1] at hp
      simp at hp
    | true =>
      rw [((fillBufferWith_fields frame F w).1 halloc).2.1] at hp
      obtain ⟨k, st, -, ha, -, hwrites, -⟩ := fillLoop_last frame F w hF
      rw [hwrites, ha.writes] at hp
      simp only [List.drop_left, List.mem_map, List.mem_range] at hp
      obtain ⟨j, -, hj⟩ := hp
      rw [← hj]
      simp only
      rw [loadedAt_succ]
      exact loadedAt_le _ _ _
  refine ⟨?_, ?_, hwr, ?_⟩
  · intro k st h
    have ha := acct_of_iterations hF k st h
    rw [ha.ptr, ha.loaded]
    exact ⟨rfl, loadedAt_le _ _ _⟩
  · intro k st st1 h h1
    obtain ⟨-, hb⟩ := iterate1_some h1
    obtain ⟨-, -, -, hp, -, hw⟩ := loopBody_next hb
    exact ⟨hp, by rw [hw]⟩
  · intro capacity hcap p hp a _ h2
    have := hwr p hp
    omega

/-- Witness for C13: the two `memcpy` calls of a load of three bytes in chunks of two. -/
theorem C13_write_pointer_in_bounds_witness :
    (fillBufferWith 2 3 opened).2.writes = [(0, 2), (2, 1)] ∧
    (fillLoop 2 3 opened).2.ptr = 3 ∧
    ∀ p ∈ (fillBufferWith 2 3 opened).2.writes.drop opened.writes.length, p.1 + p.2 ≤ 3 :=
  ⟨by decide, by decide, (C13_write_pointer_in_bounds 2 3 opened (by decide)).2.2.1⟩

/-- Claim C14, evaluated on a file of `2 ^ 58` bytes in a region of the same size: the load is
accepted and completes; after 171798692 complete iterations `bytesLoaded` is
`171798692 * 2 ^ 30`, the progress update of that iteration displays 0, and the exact quotient
`floor(100 * bytesLoaded / fileSize)` is 64. -/
theorem C14_displayed_value_is_not_exact_quotient :
    (execute "huge.bin" hugeWorld).1 = Outcome.returned ∧
    ∃ st, iterations FRAME_SIZE (2 ^ 58) 171798692
        (fillInit (2 ^ 58)
          { hugeWorld with fd := sysOpen hugeWorld "huge.bin", entered := true }) = some st ∧
      st.bytesLoaded = 171798692 * 2 ^ 30 ∧
      st.w.shown.getLast? = some 0 ∧
      100 * st.bytesLoaded / 2 ^ 58 = 64 := by
  obtain ⟨s, hopen, hsf, hav, hex, -⟩ := hugeWorld_accepted
  have key : ∀ w1 : World, w1.allocOk = true → w1.fd = some s →
      (fillBuffer (2 ^ 58) w1).1 = Outcome.returned ∧
      ∃ st, iterations FRAME_SIZE (2 ^ 58) 171798692
          (fillInit (2 ^ 58) { w1 with entered := true }) = some st ∧
        st.bytesLoaded = 171798692 * 2 ^ 30 ∧
        st.w.shown.getLast? = some 0 ∧
        100 * st.bytesLoaded / 2 ^ 58 = 64 := by
    intro w1 hw1a hfd
    have hret : (fillLoop FRAME_SIZE (2 ^ 58) w1).1 = Outcome.returned :=
      fillLoop_no_faults (by norm_num) (by decide) (by decide) hfd hsf hav
    constructor
    · unfold fillBuffer
      rw [fillBufferWith_fst, if_pos hw1a, hret]
    · obtain ⟨st, hst⟩ := @iterations_no_faults FRAME_SIZE (2 ^ 58) w1 s
        (by norm_num) (by decide) (by decide) hfd hsf hav 171798691 (by decide)
      have ha := acct_of_iterations (by norm_num) _ st hst
      have hl : st.bytesLoaded = 171798692 * 2 ^ 30 := by
        rw [ha.loaded]; decide
      refine ⟨st, hst, hl, ?_, ?_⟩
      · rw [acct_last_shown ha, hl]
        decide
      · rw [hl]; decide
  obtain ⟨k1, k2⟩ := key { hugeWorld with fd := some s } rfl rfl
  rw [hex, hopen]
  exact ⟨k1, k2⟩

/-- Claim C15. In every iteration of the loop (a state with `bytesRemaining != 0`, chunk size
at least 1) the `blockSize` computed is `min(bytesRemaining, FRAME_SIZE)`, so it is at least 1,
at most `FRAME_SIZE` and at most the bytes still to load; it is the count requested from `read`
and, when the iteration completes, the count copied by `memcpy` to the write pointer. -/
theorem C15_block_size (frame F : Nat) (st : Loop) (hfr : 1 ≤ frame)
    (hrem : st.bytesRemaining ≠ 0) :
    blockSizeOf frame st.bytesRemaining = min st.bytesRemaining frame ∧
    1 ≤ blockSizeOf frame st.bytesRemaining ∧
    blockSizeOf frame st.bytesRemaining ≤ frame ∧
    blockSizeOf frame st.bytesRemaining ≤ st.bytesRemaining ∧
    (∀ st1, loopBody frame F st = Step.next st1 →
      st1.w.reads = st.w.reads ++
        [(blockSizeOf frame st.bytesRemaining, blockSizeOf frame st.bytesRemaining)] ∧
      st1.w.writes = st.w.writes ++ [(st.ptr, blockSizeOf frame st.bytesRemaining)] ∧
      st1.w.mem = memcpy st.w.mem st.ptr st1.localBuffer (blockSizeOf frame st.bytesRemaining)) ∧
    (∀ st1, loopBody frame F st = Step.exit1 st1 →
      ∃ rc, rc ≠ blockSizeOf frame st.bytesRemaining ∧
        st1.w.reads = st.w.reads ++ [(blockSizeOf frame st.bytesRemaining, rc)] ∧
        st1.w.writes = st.w.writes ∧ st1.w.mem = st.w.mem) := by
  have hb : blockSizeOf frame st.bytesRemaining = min st.bytesRemaining frame := by
    unfold blockSizeOf
    split <;> omega
  obtain ⟨f1, f2, f3, -⟩ :=
    sysRead_fields st.w st.localBuffer (blockSizeOf frame st.bytesRemaining)
  refine ⟨hb, by omega, by omega, by omega, ?_, ?_⟩
  · intro st1 h
    obtain ⟨hrc, -, -, -, hl, hw⟩ := loopBody_next h
    refine ⟨?_, ?_, ?_⟩
    · rw [hw]
      simp only
      rw [f1, hrc]
    · rw [hw]
    · rw [hw, hl]
  · intro st1 h
    obtain ⟨hne, hst1⟩ := loopBody_exit1 h
    refine ⟨_, hne, ?_, ?_, ?_⟩
    · rw [hst1]; exact f1
    · rw [hst1]; exact f3
    · rw [hst1]; exact f2

/-- Witness for C15: with three bytes left and chunks of two the block is two bytes; with one
byte left it is one byte. -/
theorem C15_block_size_witness :
    blockSizeOf 2 (fillInit 3 opened).bytesRemaining = 2 ∧
    blockSizeOf FRAME_SIZE 5 = 5 ∧ blockSizeOf FRAME_SIZE (FRAME_SIZE + 5) = FRAME_SIZE ∧
    blockSizeOf 2 (fillInit 3 opened).bytesRemaining = min (fillInit 3 opened).bytesRemaining 2 :=
  ⟨by decide, by decide, by decide,
    (C15_block_size 2 3 (fillInit 3 opened) (by decide) (by decide)).1⟩

/-- Claim C16. For every `fileSize` and every chunk size of at least 1, when every read of the
run returns the count requested, the loop of `fillBuffer` terminates through its condition after
exactly `ceil(fileSize / FRAME_SIZE)` iterations, whatever fuel at least that large it is given:
that many reads are issued, `bytesRemaining` strictly decreases in each iteration, it is 0 when
the loop is left and not 0 at any earlier iteration boundary. -/
theorem C16_loop_terminates (frame F : Nat) (w : World) (hF : F < 2 ^ 64) (hfr : 1 ≤ frame)
    (hfull : ∀ r ∈ (fillLoop frame F w).2.w.reads.drop w.reads.length, r.2 = r.1) :
    (fillLoop frame F w).1 = Outcome.returned ∧
    iterations frame F ((F + frame - 1) / frame) (fillInit F { w with entered := true }) =
      some (fillLoop frame F w).2 ∧
    iterations frame F ((F + frame - 1) / frame + 1) (fillInit F { w with entered := true }) =
      none ∧
    (∀ fuel, (F + frame - 1) / frame ≤ fuel →
      transferLoop frame F fuel (fillInit F { w with entered := true }) = fillLoop frame F w) ∧
    ((fillLoop frame F w).2.w.reads.drop w.reads.length).length = (F + frame - 1) / frame ∧
    (fillLoop frame F w).2.bytesRemaining = 0 ∧
    (∀ j st st1, iterations frame F j (fillInit F { w with entered := true }) = some st →
      iterate1 frame F st = some st1 → st1.bytesRemaining < st.bytesRemaining) ∧
    (∀ j st, j < (F + frame - 1) / frame →
      iterations frame F j (fillInit F { w with entered := true }) = some st →
      st.bytesRemaining ≠ 0) := by
  have hret : (fillLoop frame F w).1 = Outcome.returned := by
    by_contra hne
    obtain ⟨-, n, rc, hrc, k, hreads⟩ := fillLoop_failed hF hfr hne
    have : (n, rc) ∈ (fillLoop frame F w).2.w.reads.drop w.reads.length := by
      rw [hreads, List.append_assoc, List.drop_left]
      simp
    exact hrc (hfull _ this)
  obtain ⟨k, st, hit, ha, -, -, -, -, -, -, hr⟩ := fillLoop_last frame F w hF
  obtain ⟨hst, h0⟩ := hr hret
  have hle := loadedAt_le frame F k
  have hend : loadedAt frame F k = F := by have := ha.remaining; omega
  have hk : k = (F + frame - 1) / frame := iterations_count frame F k hfr hend ha.started
  rw [← hk]
  refine ⟨hret, by rw [hit, hst], ?_, ?_, ?_, by rw [hst]; exact h0, ?_, ?_⟩
  · rw [iterations_succ_last, hit]
    simp [iterate1, h0]
  · intro fuel hfuel
    have e : fuel = k + (fuel - k) := by omega
    rw [e, transferLoop_of_iterations frame F k _ st _ hit, transferLoop_done _ _ _ _ h0]
    rw [← hst, ← hret]
  · rw [hst, ha.reads]
    simp
  · intro j sj sj1 hj hj1
    have haj := acct_of_iterations hF j sj hj
    have hj2 : iterations frame F (j + 1) (fillInit F { w with entered := true }) = some sj1 := by
      rw [iterations_succ_last, hj]
      simpa using hj1
    have haj1 := acct_of_iterations hF (j + 1) sj1 hj2
    obtain ⟨hrem, -⟩ := iterate1_some hj1
    have hlt : loadedAt frame F j < F := by have := haj.remaining; omega
    have := loadedAt_lt_succ frame F j hfr hlt
    have := loadedAt_le frame F (j + 1)
    rw [haj.remaining, haj1.remaining]
    omega
  · intro j sj hj hsj
    have haj := acct_of_iterations hF j sj hsj
    have := ha.started j hj
    rw [haj.remaining]
    omega

/-- Witness for C16: three bytes in chunks of two take two iterations, in chunks of 4096 one. -/
theorem C16_loop_terminates_witness :
    (fillLoop 2 3 opened).1 = Outcome.returned ∧
    (fillLoop 2 3 opened).2.w.reads = [(2, 2), (1, 1)] ∧
    (fillLoop 4096 3 opened).2.w.reads = [(3, 3)] ∧
    (fillLoop 2 3 opened).2.bytesRemaining = 0 :=
  have h := C16_loop_terminates 2 3 opened (by decide) (by decide) (by decide)
  ⟨h.1, by decide, by decide, h.2.2.2.2.2.1⟩

/-- Claim C17. Whatever way `fillBuffer(fileSize)` is left, every byte of the region at an
offset of `fileSize` or more has the value it had before the call, so for a successful load with
`fileSize <= capacity` the bytes at offsets in `[fileSize, capacity)` are unchanged; every
`memcpy` of the run lies within the first `fileSize` bytes. The same holds of `execute` with the
size returned by `getFileSize`. -/
theorem C17_bytes_beyond_fileSize_unchanged (F : Nat) (w : World) (hF : F < 2 ^ 64) :
    (∀ a, F ≤ a → (fillBuffer F w).2.mem a = w.mem a) ∧
    (∀ capacity, F ≤ capacity → (fillBuffer F w).1 = Outcome.returned →
      ∀ a, F ≤ a → a < capacity → (fillBuffer F w).2.mem a = w.mem a) ∧
    (∀ p ∈ (fillBuffer F w).2.writes.drop w.writes.length, p.1 + p.2 ≤ F) ∧
    (∀ filename s, sysOpen w filename = some s →
      ∀ a, (getFileSize { w with fd := some s }).1 ≤ a → (execute filename w).2.mem a = w.mem a) := by
  have key : ∀ (G : Nat) (v : World), G < 2 ^ 64 →
      (∀ a, G ≤ a → (fillBuffer G v).2.mem a = v.mem a) ∧
      (∀ p ∈ (fillBuffer G v).2.writes.drop v.writes.length, p.1 + p.2 ≤ G) := by
    intro G v hG
    unfold fillBuffer
    cases halloc : v.allocOk with
    | false =>
      obtain ⟨h1, h2, -⟩ := (fillBufferWith_fields FRAME_SIZE G v).2 halloc
      rw [h1, h2]
      exact ⟨fun _ _ => rfl, by simp⟩
    | true =>
      obtain ⟨h1, h2, -⟩ := (fillBufferWith_fields FRAME_SIZE G v).1 halloc
      obtain ⟨k, st, hit, ha, -, hwrites, hmem, -⟩ := fillLoop_last FRAME_SIZE G v hG
      obtain ⟨-, hun⟩ := untouched_of_iterations FRAME_SIZE G k _ st hit
      have hle := loadedAt_le FRAME_SIZE G k
      rw [h1, h2, hmem, hwrites]
      constructor
      · intro a ha1
        exact hun a (by rw [ha.ptr]; omega)
      · intro p hp
        rw [ha.writes] at hp
        simp only [List.drop_left, List.mem_map, List.mem_range] at hp
        obtain ⟨j, -, hj⟩ := hp
        rw [← hj]
        simp only
        rw [loadedAt_succ]
        exact loadedAt_le _ _ _
  refine ⟨(key F w hF).1, fun _ _ _ a h1 _ => (key F w hF).1 a h1, (key F w hF).2, ?_⟩
  intro filename s hopen a ha
  by_cases hmap : w.contigBuffer.mapOk = true
  · by_cases hfit : (getFileSize { w with fd := some s }).1 ≤ w.contigBuffer.size
    · rw [(execute_accepted hopen hmap hfit).2.1]
      exact (key _ { w with fd := some s } (getFileSize_lt _)).1 a ha
    · rw [execute_opened hopen, if_pos hmap, if_pos (Nat.lt_of_not_le hfit)]
  · rw [execute_opened hopen, if_neg hmap]

/-- Witness for C17: three bytes loaded into a region of eight, all holding 9 before. -/
theorem C17_bytes_beyond_fileSize_unchanged_witness :
    bytesOf (fillBuffer 3 roomy).2.mem 8 = [1, 2, 3, 9, 9, 9, 9, 9] ∧
    (fillBuffer 3 roomy).2.mem 7 = roomy.mem 7 :=
  ⟨by decide, (C17_bytes_beyond_fileSize_unchanged 3 roomy (by decide)).1 7 (by decide)⟩

/-- Claim C18. If the reads of chunks `0 .. k - 1` returned the count requested (the loop of
`fillBuffer` reached its boundary number `k`) and the read of chunk `k` returns a different
count, `fillBuffer` ends with `exit(1)` and the region then holds the first `k * FRAME_SIZE`
bytes of the source at offsets `[0, k * FRAME_SIZE)`, while every byte at an offset of
`k * FRAME_SIZE` or more is as it was before the call: only the `k` full chunks were copied. -/
theorem C18_short_chunk_not_copied (frame F : Nat) (w : World) (s : Source) (k : Nat)
    (st : Loop) (hF : F < 2 ^ 64) (hfr : 1 ≤ frame) (hfr2 : frame < 2 ^ 64 - 1)
    (halloc : w.allocOk = true) (hfd : w.fd = some s)
    (hreach : iterations frame F k (fillInit F { w with entered := true }) = some st)
    (hrem : st.bytesRemaining ≠ 0)
    (hshort : (sysRead st.w st.localBuffer (blockSizeOf frame st.bytesRemaining)).1 ≠
      blockSizeOf frame st.bytesRemaining) :
    (fillBufferWith frame F w).1 = Outcome.exited 1 ∧
    bytesOf (fillBufferWith frame F w).2.mem (k * frame) = (s.data.drop s.pos).take (k * frame) ∧
    ((s.data.drop s.pos).take (k * frame)).length = k * frame ∧
    (∀ a, k * frame ≤ a → (fillBufferWith frame F w).2.mem a = w.mem a) ∧
    (fillBufferWith frame F w).2.writes =
      w.writes ++ (List.range k).map (fun j => (j * frame, frame)) := by
  obtain ⟨h1, h2, h3, -, -⟩ := fillLoop_of_short hF hfr hreach hrem hshort
  obtain ⟨g1, g2, -⟩ := (fillBufferWith_fields frame F w).1 halloc
  have ha := acct_of_iterations hF k st hreach
  have hm := moved_of_iterations (s := s) hF hfr2 (by simpa using hfd) k st hreach
  have hlt : loadedAt frame F k < F := by have := ha.remaining; omega
  have hL : loadedAt frame F k = k * frame := by
    unfold loadedAt at hlt ⊢
    omega
  have hlen : ((s.data.drop s.pos).take (k * frame)).length = k * frame := by
    have := hm.avail
    rw [hL] at this
    simp only [List.length_take, List.length_drop]
    omega
  have hmem : (fillBufferWith frame F w).2.mem =
      overlay w.mem ((s.data.drop s.pos).take (k * frame)) := by
    rw [g1, h2, hm.mem, hL]
  refine ⟨by rw [fillBufferWith_fst, if_pos halloc]; exact h1, ?_, hlen, ?_, ?_⟩
  · rw [hmem]
    have := bytesOf_overlay w.mem ((s.data.drop s.pos).take (k * frame))
    rw [hlen] at this
    exact this
  · intro a ha1
    rw [hmem]
    exact overlay_of_le _ _ _ (by rw [hlen]; exact ha1)
  · rw [g2, h3, ha.writes]
    congr 1
    apply List.map_congr_left
    intro j hj
    have hj1 : j < k := List.mem_range.mp hj
    have hj2 : loadedAt frame F (j + 1) ≤ loadedAt frame F k := loadedAt_mono frame F hj1
    have e1 : loadedAt frame F j = j * frame := by
      have := ha.started j hj1
      unfold loadedAt at this ⊢
      omega
    have e2 : loadedAt frame F (j + 1) = (j + 1) * frame := by
      unfold loadedAt at hj2 hlt ⊢
      omega
    unfold blockAt
    rw [e2, e1, Nat.succ_mul]
    simp

/-- Witness for C18: five bytes announced, three in the file, chunks of two: chunk 1 is read
short, so only chunk 0 is in the region. -/
theorem C18_short_chunk_not_copied_witness :
    (fillBufferWith 2 5 truncated).1 = Outcome.exited 1 ∧
    bytesOf (fillBufferWith 2 5 truncated).2.mem (1 * 2) = [1, 2] ∧
    bytesOf (fillBufferWith 2 5 truncated).2.mem 5 = [1, 2, 9, 9, 9] :=
  have h := C18_short_chunk_not_copied 2 5 truncated
    { data := [1, 2, 3], pos := 0, seekable := true, faults := [] } 1
    ((iterations 2 5 1 (fillInit 5 { truncated with entered := true })).getD
      (fillInit 5 truncated))
    (by decide) (by decide) (by decide) rfl rfl rfl (by decide) (by decide)
  ⟨h.1, h.2.1, by decide⟩

/-- Claim C19. Whenever the body of the loop of `fillBuffer(fileSize)` runs, that is at every
iteration boundary reached with `bytesRemaining != 0`, `fileSize` is greater than 0, so the
division by `fileSize` in the progress computation is never a division by zero; with
`fileSize == 0` the body does not run at all. -/
theorem C19_no_division_by_zero (frame F : Nat) (w : World) (k : Nat) (st : Loop)
    (hreach : iterations frame F k (fillInit F { w with entered := true }) = some st)
    (hrun : st.bytesRemaining ≠ 0) :
    0 < st.bytesRemaining ∧ 0 < F ∧
    (∀ st1, loopBody frame F st = Step.next st1 →
      st1.w.shown = st.w.shown ++ [pctOf st1.bytesLoaded F] ∧ F ≠ 0) ∧
    iterate1 frame 0 (fillInit 0 { w with entered := true }) = none := by
  have h1 := remaining_le_of_iterations frame F k _ st hreach
  have h2 : (fillInit F { w with entered := true }).bytesRemaining = F := rfl
  rw [h2] at h1
  refine ⟨by omega, by omega, ?_, ?_⟩
  · intro st1 h
    obtain ⟨-, hl, -, -, -, hw⟩ := loopBody_next h
    refine ⟨?_, by omega⟩
    rw [hw, hl]
  · simp [iterate1, fillInit]

/-- Witness for C19: the second iteration of a load of three bytes in chunks of two. -/
theorem C19_no_division_by_zero_witness :
    0 < ((iterations 2 3 1 (fillInit 3 { opened with entered := true })).getD
      (fillInit 3 opened)).bytesRemaining ∧
    (fillBufferWith 2 3 opened).2.shown = [0, 66, 100, 100] ∧
    (fillBufferWith 2 0 opened).2.shown = [0, 100] :=
  ⟨(C19_no_division_by_zero 2 3 opened 1
      ((iterations 2 3 1 (fillInit 3 { opened with entered := true })).getD (fillInit 3 opened))
      rfl (by decide)).1, by decide, by decide⟩

end LoadContig
